import Mathlib

/-!
Verification development for the Migration-IQ core: a shallow embedding of
the migration dependency graph (`migrationiq/core/migration_graph.py`), the
risk scoring aggregator (`migrationiq/core/risk_scoring.py`), the branch
comparator (`migrationiq/core/branch_compare.py`), the non-null lint rule
(`migrationiq/rules/non_null_rule.py`) and the engine's graph builder
(`migrationiq/core/engine.py`), together with theorems settling the
specification claims about them.

Python `str` values are modelled by `String`; Python's string comparison is
code-point lexicographic, modelled below by `lexLt`/`strLeb`, and Python's
`sorted` is modelled by a stable insertion sort `sortStrings` (on the
duplicate-free lists arising here this is the unique sorted ordering, so it
agrees with any correct sort).  Python `set`s that are only ever read
through `sorted(...)`, emptiness tests or `len(...)` are modelled as
insertion-ordered duplicate-free lists; `dict`s used as functions are
modelled as Lean functions, with a separate key list where the source
iterates over `dict.items()` (insertion order).
-/

/-- Code-point lexicographic strict order on character lists: the order
Python uses to compare `str` values. -/
def lexLt : List Char → List Char → Bool
  | [], [] => false
  | [], _ :: _ => true
  | _ :: _, [] => false
  | a :: as, b :: bs =>
    if a.toNat < b.toNat then true
    else if b.toNat < a.toNat then false
    else lexLt as bs

/-- Non-strict comparison used for sorting strings (total since `lexLt` is a
strict total order). -/
def strLeb (a b : String) : Bool := !(lexLt b.data a.data)

/-- Insert a string into a sorted list, keeping earlier equal-or-smaller
entries in front (stable, like Python's sort). -/
def insertSorted (x : String) : List String → List String
  | [] => [x]
  | y :: ys => if strLeb x y then x :: y :: ys else y :: insertSorted x ys

/-- Model of Python's `sorted` on lists of strings. -/
def sortStrings (l : List String) : List String := l.foldr insertSorted []

/-- Insert into a Python `set` modelled as a duplicate-free list (no-op when
already present, else appended; the sets here are only read through
`sorted`, emptiness or `len`, so insertion order is irrelevant). -/
def addToSet (l : List String) (x : String) : List String :=
  if x ∈ l then l else l ++ [x]

/-! ## The migration graph (class `MigrationGraph`)

State of `MigrationGraph.__init__`: `_forward`/`_reverse` are
`defaultdict(set)` and `_nodes` a `set`.  Keys of `_forward` are created
exactly by `add_edge` and their value sets are never emptied, so a key is
present iff its set is nonempty; `forward`/`reverse` are therefore modelled
as total functions (missing key ↦ `[]`), with `fwdKeys` recording the key
insertion order of `_forward` because `missing_dependencies` iterates
`_forward.items()`. -/

structure MigrationGraph where
  nodes : List String
  fwdKeys : List String
  forward : String → List String
  reverse : String → List String

/-- A fresh `MigrationGraph()`. -/
def MigrationGraph.empty : MigrationGraph :=
  { nodes := [], fwdKeys := [], forward := fun _ => [], reverse := fun _ => [] }

/-- `add_node`: `self._nodes.add(node)`. -/
def MigrationGraph.add_node (g : MigrationGraph) (node : String) : MigrationGraph :=
  { g with nodes := addToSet g.nodes node }

/-- `add_edge`: adds both endpoints to `_nodes`, `dependency` to
`_forward[node]` and `node` to `_reverse[dependency]`. -/
def MigrationGraph.add_edge (g : MigrationGraph) (node dependency : String) :
    MigrationGraph :=
  { nodes := addToSet (addToSet g.nodes node) dependency
    fwdKeys := if g.forward node = [] then g.fwdKeys ++ [node] else g.fwdKeys
    forward := fun x =>
      if x = node then addToSet (g.forward node) dependency else g.forward x
    reverse := fun x =>
      if x = dependency then addToSet (g.reverse dependency) node else g.reverse x }

/-- `find_heads`: `sorted(n for n in self._nodes if not self._reverse.get(n))`. -/
def MigrationGraph.find_heads (g : MigrationGraph) : List String :=
  sortStrings (g.nodes.filter (fun n => (g.reverse n).isEmpty))

/-- `find_roots`: `sorted(n for n in self._nodes if not self._forward.get(n))`. -/
def MigrationGraph.find_roots (g : MigrationGraph) : List String :=
  sortStrings (g.nodes.filter (fun n => (g.forward n).isEmpty))

/-- `find_orphans`: nodes with neither forward nor reverse adjacency. -/
def MigrationGraph.find_orphans (g : MigrationGraph) : List String :=
  sortStrings (g.nodes.filter
    (fun n => (g.forward n).isEmpty && (g.reverse n).isEmpty))

/-- `detect_multiple_heads`: the head list iff more than one head. -/
def MigrationGraph.detect_multiple_heads (g : MigrationGraph) : List String :=
  let heads := g.find_heads
  if heads.length > 1 then heads else []

/-- `missing_dependencies`: iterate `_forward.items()` in key insertion
order; for each key, scan its dependency set in sorted order and report the
pairs whose target is not in `_nodes`. -/
def MigrationGraph.missing_dependencies (g : MigrationGraph) :
    List (String × String) :=
  g.fwdKeys.flatMap (fun node =>
    ((sortStrings (g.forward node)).filter
      (fun dep => !(decide (dep ∈ g.nodes)))).map (fun dep => (node, dep)))

/-! ### Well-formedness

Every graph reachable through the public constructors (`MigrationGraph()`,
`add_node`, `add_edge`) satisfies `WF`; the universally quantified claims
range over such graphs. -/

structure WF (g : MigrationGraph) : Prop where
  nodesNodup : g.nodes.Nodup
  fwdKeysNodup : g.fwdKeys.Nodup
  fwdKeysSub : ∀ k ∈ g.fwdKeys, k ∈ g.nodes
  fwdSupport : ∀ x, g.forward x ≠ [] → x ∈ g.fwdKeys
  fwdKeysNonempty : ∀ k ∈ g.fwdKeys, g.forward k ≠ []
  fwdNodup : ∀ x, (g.forward x).Nodup
  fwdTgt : ∀ x d, d ∈ g.forward x → d ∈ g.nodes
  revNodup : ∀ x, (g.reverse x).Nodup
  revTgt : ∀ x u, u ∈ g.reverse x → u ∈ g.nodes
  fwdRev : ∀ x d, d ∈ g.forward x ↔ x ∈ g.reverse d

/-! ### Graphs reachable through the public interface -/

/-- One call to a `MigrationGraph` mutator. -/
inductive GraphOp
  | node (id : String)
  | edge (node dependency : String)

/-- Apply one mutator call. -/
def applyOp (g : MigrationGraph) : GraphOp → MigrationGraph
  | .node i => g.add_node i
  | .edge n d => g.add_edge n d

/-- The graph produced by a sequence of `add_node`/`add_edge` calls on a
fresh `MigrationGraph()`. -/
def buildGraph (ops : List GraphOp) : MigrationGraph :=
  ops.foldl applyOp MigrationGraph.empty

/-! ## Migration records and the engine's graph builder -/

/-- `MigrationInfo` (`migrationiq/adapters/base.py`): normalized migration
record.  `file_path` is `str(file_path or "")`, i.e. `""` models `None`. -/
structure MigrationInfo where
  migration_id : String
  app_label : String := ""
  dependencies : List String := []
  operations : List String := []
  sql_content : String := ""
  file_path : String := ""

/-- `MigrationIQEngine._build_graph`: one `add_node` per record id and one
`add_edge(record_id, dep)` per declared dependency. -/
def build_graph (migrations : List MigrationInfo) : MigrationGraph :=
  migrations.foldl
    (fun g m =>
      m.dependencies.foldl (fun g' dep => g'.add_edge m.migration_id dep)
        (g.add_node m.migration_id))
    MigrationGraph.empty

/-! ## `topological_sort` (Kahn's algorithm)

The Python loop pops from the left of a `deque` seeded with the sorted
zero-in-degree nodes and appends newly freed dependents in sorted order.
The in-degree dict is modelled as a function updated pointwise (it is only
read at graph nodes).  The loop fuel is `len(nodes)`: each node is enqueued
at most once (`kahn_nodup` below), so the Python loop performs at most
`len(nodes)` iterations and the fuelled loop is exact. -/

/-- The `for dependent in sorted(self._reverse.get(node, set()))` body:
decrement each dependent's in-degree and enqueue it when it reaches zero. -/
def kahnVisit (deg : String → Int) (queue : List String) :
    List String → (String → Int) × List String
  | [] => (deg, queue)
  | dep :: rest =>
    let deg' := Function.update deg dep (deg dep - 1)
    let queue' := if deg' dep = 0 then queue ++ [dep] else queue
    kahnVisit deg' queue' rest

/-- The `while queue:` loop of `topological_sort`; returns the result list
and the remaining queue. -/
def kahnLoop (g : MigrationGraph) :
    Nat → (String → Int) → List String → List String →
    List String × List String
  | 0, _, queue, result => (result, queue)
  | _ + 1, _, [], result => (result, [])
  | fuel + 1, deg, node :: queue, result =>
    let step := kahnVisit deg queue (sortStrings (g.reverse node))
    kahnLoop g fuel step.1 step.2 (result ++ [node])

/-- `topological_sort`: Kahn's algorithm; raises `ValueError` (modelled as
`Except.error`) when fewer nodes are emitted than exist in the graph. -/
def MigrationGraph.topological_sort (g : MigrationGraph) :
    Except String (List String) :=
  let deg0 : String → Int := fun n => ((g.forward n).length : Int)
  let queue0 := sortStrings (g.nodes.filter (fun n => (g.forward n).length == 0))
  let res := (kahnLoop g g.nodes.length deg0 queue0 []).1
  if res.length = g.nodes.length then Except.ok res
  else Except.error "Migration graph contains cycles – topological sort is impossible."

/-! ## `detect_cycles` (iterative three-colour depth-first search) -/

/-- The three colours `WHITE`, `GRAY`, `BLACK` of `detect_cycles`. -/
inductive Color
  | white
  | gray
  | black
deriving DecidableEq

/-- Mutable state of `detect_cycles`: the colour and parent dicts, the
explicit DFS stack (head = top), and the accumulated cycle list. -/
structure DfsState where
  color : String → Color
  parent : String → Option String
  stack : List (String × Bool)
  cycles : List (List String)

/-- The `while cur is not None and cur != dep` parent walk.  Parent links
are only written while the child is WHITE and always point to an
already-GRAY node, so following them strictly decreases first-visit time:
the walk never revisits a node, hence visits at most `len(nodes)` nodes and
the fuelled version (fuel `len(nodes) + 1`) is exact. -/
def parentChain (parent : String → Option String) (dep : String) :
    Nat → Option String → List String
  | _, none => []
  | 0, some _ => []
  | fuel + 1, some cur =>
    if cur = dep then [] else cur :: parentChain parent dep fuel (parent cur)

/-- Cycle reconstruction: `[dep, node]` extended by the parent walk from
`node`, then reversed. -/
def buildCycle (parent : String → Option String) (dep node : String)
    (fuel : Nat) : List String :=
  ([dep, node] ++ parentChain parent dep fuel (parent node)).reverse

/-- The `for dep in sorted(self._forward.get(node, set()))` loop: record a
cycle for each GRAY dependency, push each WHITE dependency (setting its
parent link). -/
def processDeps (g : MigrationGraph) (node : String) (s : DfsState) : DfsState :=
  (sortStrings (g.forward node)).foldl
    (fun st dep =>
      match st.color dep with
      | Color.gray =>
        { st with cycles :=
            st.cycles ++ [buildCycle st.parent dep node (g.nodes.length + 1)] }
      | Color.white =>
        { st with parent := Function.update st.parent dep (some node),
                  stack := (dep, false) :: st.stack }
      | Color.black => st) s

/-- The `while stack:` loop of `detect_cycles`.  The fuel passed by
`detect_cycles` strictly dominates the potential `dfsPhi` below, which
each iteration decreases, so the fuelled loop is exact. -/
def dfsInner (g : MigrationGraph) : Nat → DfsState → DfsState
  | 0, s => s
  | fuel + 1, s =>
    match s.stack with
    | [] => s
    | (node, processed) :: rest =>
      if processed then
        dfsInner g fuel
          { s with stack := rest,
                   color := Function.update s.color node Color.black }
      else if s.color node = Color.gray then
        dfsInner g fuel
          { s with stack := rest,
                   color := Function.update s.color node Color.black }
      else
        dfsInner g fuel
          (processDeps g node
            { s with stack := (node, true) :: rest,
                     color := Function.update s.color node Color.gray })

/-- Total number of forward-edge entries (for the DFS fuel bound). -/
def MigrationGraph.edgeSum (g : MigrationGraph) : Nat :=
  (g.nodes.map (fun x => (g.forward x).length)).sum

/-- `detect_cycles`: iterative three-colour DFS over starts in sorted order. -/
def MigrationGraph.detect_cycles (g : MigrationGraph) : List (List String) :=
  let fuel := 3 * g.nodes.length + 2 * g.edgeSum + 3
  let init : DfsState :=
    { color := fun _ => Color.white, parent := fun _ => none, stack := [], cycles := [] }
  ((sortStrings g.nodes).foldl
    (fun s start =>
      if s.color start = Color.white then
        dfsInner g fuel { s with stack := [(start, false)] }
      else s) init).cycles

/-! ## `GraphIssue` and `analyze` -/

/-- A single problem detected in the migration graph. -/
structure GraphIssue where
  issue_type : String
  severity : String
  description : String
  nodes : List String := []

/-- `analyze`: multiple-heads issue, then one issue per cycle, then one per
missing dependency, then a combined orphan warning. -/
def MigrationGraph.analyze (g : MigrationGraph) : List GraphIssue :=
  let heads := g.detect_multiple_heads
  let headIssues : List GraphIssue :=
    if heads.isEmpty then []
    else
      let n := heads.length
      [{ issue_type := "multiple_heads", severity := "critical",
         description := s!"Migration graph has {n} heads – this will cause merge conflicts. Create a merge migration to resolve.",
         nodes := heads }]
  let cycleIssues : List GraphIssue :=
    g.detect_cycles.map (fun cycle =>
      let path := String.intercalate " → " cycle
      { issue_type := "cycle", severity := "critical",
        description := s!"Circular dependency detected: {path}. This will prevent migrations from running.",
        nodes := cycle })
  let missingIssues : List GraphIssue :=
    g.missing_dependencies.map (fun p =>
      let node := p.1
      let dep := p.2
      { issue_type := "missing_dependency", severity := "critical",
        description := s!"Migration '{node}' depends on '{dep}' which does not exist.",
        nodes := [p.1, p.2] })
  let orphans := g.find_orphans
  let orphanIssues : List GraphIssue :=
    if orphans.isEmpty then []
    else
      let n := orphans.length
      [{ issue_type := "orphan", severity := "warning",
         description := s!"Found {n} orphan migration(s) with no dependencies or dependents.",
         nodes := orphans }]
  headIssues ++ cycleIssues ++ missingIssues ++ orphanIssues

/-! ## Risk scoring (`migrationiq/core/risk_scoring.py`) -/

/-- The `Severity` enum. -/
inductive Severity
  | LOW
  | MEDIUM
  | HIGH
  | CRITICAL
deriving DecidableEq

/-- `Severity.from_score`: threshold bands on the total score. -/
def Severity.from_score (score : Int) : Severity :=
  if score ≤ 3 then Severity.LOW
  else if score ≤ 6 then Severity.MEDIUM
  else if score ≤ 9 then Severity.HIGH
  else Severity.CRITICAL

/-- `DEFAULT_WEIGHTS` (dict modelled as an association list with its unique
keys). -/
def DEFAULT_WEIGHTS : List (String × Int) :=
  [("drop_table", 10), ("drop_column", 8),
   ("non_null_without_default", 7), ("risky_type_change", 6),
   ("multiple_heads", 9), ("branch_behind_target", 5), ("large_table_alter", 6)]

/-- A single risk finding. -/
structure RiskFinding where
  category : String
  score : Int
  description : String
  file_path : String := ""

/-- `RiskReport`: an accumulating list of findings. -/
structure RiskReport where
  findings : List RiskFinding := []

/-- `total_score`: sum of all finding scores. -/
def RiskReport.total_score (r : RiskReport) : Int :=
  (r.findings.map (fun f => f.score)).sum

/-- Derived `severity` property. -/
def RiskReport.severity (r : RiskReport) : Severity :=
  Severity.from_score r.total_score

/-- `w.get(category, 5)`. -/
def weightLookup (w : List (String × Int)) (category : String) : Int :=
  match w.lookup category with
  | some v => v
  | none => 5

/-- `RiskReport.add`: `weights or DEFAULT_WEIGHTS` (an absent or empty
table falls back to the default), then append a finding scored by table
lookup with default 5. -/
def RiskReport.add (r : RiskReport) (category description : String)
    (file_path : String := "")
    (weights : Option (List (String × Int)) := none) : RiskReport :=
  let w := match weights with
    | none => DEFAULT_WEIGHTS
    | some t => if t = [] then DEFAULT_WEIGHTS else t
  { findings := r.findings ++
      [{ category := category, score := weightLookup w category,
         description := description, file_path := file_path }] }

/-- `passed`: true iff no findings were recorded. -/
def RiskReport.passed (r : RiskReport) : Bool :=
  r.findings.length == 0

/-! ## Branch comparison (`migrationiq/core/branch_compare.py`)

The version-control collaborator (`GitClient`) is external to the core; it
is modelled as a record of pure functions giving the observable results of
its commands.  `fetch()` returns nothing observable and is not modelled.
`merge_base` returns `""` when git reports no merge base. -/

structure GitClientModel where
  current_branch : String
  merge_base : String → String → String
  commits_between : String → String → Int
  diff_files : String → String → List String

/-- `ComparisonReport` with its dataclass defaults. -/
structure ComparisonReport where
  current_branch : String := ""
  target_branch : String := ""
  is_behind : Bool := false
  commits_behind : Int := 0
  current_only : List String := []
  target_only : List String := []
  parallel_migrations : List String := []
  suggestions : List String := []

/-- `has_issues`: behind, or parallel migrations, or target-only migrations. -/
def ComparisonReport.has_issues (r : ComparisonReport) : Bool :=
  r.is_behind || !r.parallel_migrations.isEmpty || !r.target_only.isEmpty

/-- `str.split("/")` on a character list (keeps empty pieces). -/
def splitSlash : List Char → List (List Char)
  | [] => [[]]
  | c :: rest =>
    match splitSlash rest with
    | [] => [[]]
    | piece :: pieces =>
      if c = '/' then [] :: piece :: pieces else (c :: piece) :: pieces

/-- `path.endswith(".py")`. -/
def endsWithDotPy (l : List Char) : Bool :=
  l.reverse.take 3 == ['y', 'p', '.']

/-- `BranchComparator._is_migration_file`: `.py` path containing a
`migrations` or `versions` path segment (after normalising backslashes). -/
def is_migration_file (path : String) : Bool :=
  let parts := splitSlash (path.data.map (fun c => if c = '\\' then '/' else c))
  if !endsWithDotPy path.data then false
  else if parts.contains "migrations".data then true
  else if parts.contains "versions".data then true
  else false

/-- `BranchComparator._migration_files_in_diff` (a Python `set`, modelled as
a deduplicated list; it is only consumed through set algebra and `sorted`). -/
def migration_files_in_diff (git : GitClientModel) (base_ref head_ref : String) :
    List String :=
  ((git.diff_files base_ref head_ref).filter is_migration_file).eraseDups

/-- `BranchComparator._generate_suggestions`. -/
def generate_suggestions (r : ComparisonReport) : List String :=
  (if r.is_behind then
    let n := r.commits_behind
    let t := r.target_branch
    [s!"Your branch is {n} commit(s) behind '{t}'. Rebase or merge the target branch first."]
   else []) ++
  (if !r.target_only.isEmpty then
    let n := r.target_only.length
    [s!"Target branch has {n} new migration(s) not in your branch. Merge target into your branch and resolve any migration conflicts."]
   else []) ++
  (if !r.parallel_migrations.isEmpty then
    let n := r.parallel_migrations.length
    [s!"Found {n} parallel migration file(s) modified in both branches. This is likely to cause merge conflicts. Coordinate with the other branch author."]
   else []) ++
  (if !r.current_only.isEmpty && !r.target_only.isEmpty then
    ["Both branches added new migrations. After merging, run 'makemigrations --merge' (Django) or 'alembic merge' (Alembic) to create a merge migration."]
   else [])

/-- `BranchComparator.compare`: fetch, find the merge base, return early
with a single suggestion when there is none, otherwise classify the two
branches' migration files and generate suggestions. -/
def BranchComparator.compare (git : GitClientModel) (target_branch : String) :
    ComparisonReport :=
  let current := git.current_branch
  let merge_base := git.merge_base current target_branch
  if merge_base = "" then
    { current_branch := current, target_branch := target_branch,
      suggestions :=
        ["Could not determine merge base. Ensure both branches share a common ancestor."] }
  else
    let behind := git.commits_between merge_base target_branch
    let current_files := migration_files_in_diff git merge_base current
    let target_files := migration_files_in_diff git merge_base target_branch
    let base : ComparisonReport :=
      { current_branch := current, target_branch := target_branch,
        is_behind := behind > 0, commits_behind := behind,
        current_only :=
          sortStrings (current_files.filter (fun f => !(target_files.contains f))),
        target_only :=
          sortStrings (target_files.filter (fun f => !(current_files.contains f))),
        parallel_migrations :=
          sortStrings (current_files.filter (fun f => target_files.contains f)),
        suggestions := [] }
    { base with suggestions := generate_suggestions base }

/-! ## The non-null-without-default rule (`migrationiq/rules/non_null_rule.py`)

The rule's regular expressions are modelled by direct character-list
matchers.  All scanned contents are ASCII, so ASCII notions of `\w`, `\s`
and case folding coincide with Python's. -/

/-- The `ViolationSeverity` enum. -/
inductive ViolationSeverity
  | INFO
  | WARNING
  | ERROR
  | CRITICAL
deriving DecidableEq

/-- A single rule violation. -/
structure RuleViolation where
  rule_id : String
  severity : ViolationSeverity
  file_path : String
  message : String
  explanation : String
  suggested_fix : String
  example_snippet : String := ""
  line_hint : Option Nat := none

/-- Python `\w` (ASCII). -/
def isWordChar (c : Char) : Bool := c.isAlpha || c.isDigit || c = '_'

/-- Word boundary `\b` before a match: start of text or a non-word char. -/
def boundaryStart (prev : Option Char) : Bool :=
  match prev with
  | none => true
  | some c => !(isWordChar c)

/-- Word boundary `\b` after a match ending in a word char. -/
def boundaryNext (rest : List Char) : Bool :=
  match rest with
  | [] => true
  | c :: _ => !(isWordChar c)

/-- Case-insensitive literal match (pattern given lowercase), returning the
last consumed char and the remaining text. -/
def matchLitCI : List Char → Option Char → List Char → Option (Option Char × List Char)
  | [], prev, rest => some (prev, rest)
  | p :: ps, _, c :: cs => if c.toLower = p then matchLitCI ps (some c) cs else none
  | _ :: _, _, [] => none

/-- `\s*`: consume any run of whitespace. -/
def matchWS : Option Char → List Char → Option Char × List Char
  | prev, [] => (prev, [])
  | prev, c :: cs => if c.isWhitespace then matchWS (some c) cs else (prev, c :: cs)

/-- `\s+`: require at least one whitespace char, then consume the run. -/
def matchWS1 (_prev : Option Char) (s : List Char) :
    Option (Option Char × List Char) :=
  match s with
  | c :: cs => if c.isWhitespace then some (matchWS (some c) cs) else none
  | [] => none

/-- Greedily consume a run of word chars (for `\w+` followed by `\s`). -/
def matchWordRun : Option Char → List Char → Option Char × List Char
  | prev, [] => (prev, [])
  | prev, c :: cs => if isWordChar c then matchWordRun (some c) cs else (prev, c :: cs)

/-- `\w+` whose remainder may also be word chars: require one word char
(the rest can be absorbed by a following `[^;]*`). -/
def matchWord1 (s : List Char) : Option (Option Char × List Char) :=
  match s with
  | c :: cs => if isWordChar c then some (some c, cs) else none
  | [] => none

/-- Collect every position at which `p prev suffix` matches.  For the
boundary-flanked call literals below (`op.add_column`, `AddField`, …) the
literal cannot overlap itself, so this equals `re.finditer`. -/
def scanMatches (p : Option Char → List Char → Bool) :
    Option Char → List Char → Nat → List Nat
  | _, [], _ => []
  | prev, c :: cs, i =>
    let rest := scanMatches p (some c) cs (i + 1)
    if p prev (c :: cs) then i :: rest else rest

/-- `re.search`: does the pattern match anywhere? -/
def containsMatch (p : Option Char → List Char → Bool) (content : List Char) :
    Bool :=
  !(scanMatches p none content 0).isEmpty

/-- `\bop\.add_column\b` (IGNORECASE). -/
def alembicAddColAt (prev : Option Char) (s : List Char) : Bool :=
  boundaryStart prev &&
    (match matchLitCI "op.add_column".data prev s with
     | some (_, rest) => boundaryNext rest
     | none => false)

/-- `\bAddField\b` (IGNORECASE). -/
def addFieldAt (prev : Option Char) (s : List Char) : Bool :=
  boundaryStart prev &&
    (match matchLitCI "addfield".data prev s with
     | some (_, rest) => boundaryNext rest
     | none => false)

/-- `\bnullable\s*=\s*False\b` (IGNORECASE). -/
def nullableFalseAt (prev : Option Char) (s : List Char) : Bool :=
  boundaryStart prev &&
    (match matchLitCI "nullable".data prev s with
     | some (p1, r1) =>
       (match matchWS p1 r1 with
        | (_, '=' :: r2) =>
          (match matchWS (some '=') r2 with
           | (p3, r3) =>
             (match matchLitCI "false".data p3 r3 with
              | some (_, rest) => boundaryNext rest
              | none => false))
        | _ => false)
     | none => false)

/-- `\bnull\s*=\s*False\b` (IGNORECASE). -/
def nullFalseAt (prev : Option Char) (s : List Char) : Bool :=
  boundaryStart prev &&
    (match matchLitCI "null".data prev s with
     | some (p1, r1) =>
       (match matchWS p1 r1 with
        | (_, '=' :: r2) =>
          (match matchWS (some '=') r2 with
           | (p3, r3) =>
             (match matchLitCI "false".data p3 r3 with
              | some (_, rest) => boundaryNext rest
              | none => false))
        | _ => false)
     | none => false)

/-- `\bdefault\s*=` (IGNORECASE). -/
def defaultEqAt (prev : Option Char) (s : List Char) : Bool :=
  boundaryStart prev &&
    (match matchLitCI "default".data prev s with
     | some (p1, r1) =>
       (match matchWS p1 r1 with
        | (_, '=' :: _) => true
        | _ => false)
     | none => false)

/-- `[^;]*\bDEFAULT\b` reachable from here without crossing a `;` (the body
of the negative lookahead). -/
def defaultAhead : Option Char → List Char → Bool
  | prev, s =>
    (boundaryStart prev &&
      (match matchLitCI "default".data prev s with
       | some (_, rest) => boundaryNext rest
       | none => false)) ||
    (match s with
     | [] => false
     | c :: cs => if c = ';' then false else defaultAhead (some c) cs)

/-- `[^;]*\bNOT\s+NULL\b(?![^;]*\bDEFAULT\b)` reachable from here without
crossing a `;`: try `\bNOT\s+NULL\b` at each position of the `;`-free
region, checking the negative lookahead after the match. -/
def notNullTail : Option Char → List Char → Bool
  | prev, s =>
    (boundaryStart prev &&
      (match matchLitCI "not".data prev s with
       | some (p1, r1) =>
         (match matchWS1 p1 r1 with
          | some (p2, r2) =>
            (match matchLitCI "null".data p2 r2 with
             | some (p3, rest) =>
               boundaryNext rest && !(defaultAhead p3 rest)
             | none => false)
          | none => false)
       | none => false)) ||
    (match s with
     | [] => false
     | c :: cs => if c = ';' then false else notNullTail (some c) cs)

/-- `\bADD\s+COLUMN\s+\w+\s+\w+[^;]*\bNOT\s+NULL\b(?![^;]*\bDEFAULT\b)`
(IGNORECASE, DOTALL): match existence at this position.  The leading
`ADD\s+COLUMN\s+\w+\s+` segment is deterministic (word chars and
whitespace are disjoint); the second `\w+` keeps one char and leaves the
rest to the `[^;]*` search in `notNullTail`, which explores every split, so
this is exactly the backtracking existence semantics. -/
def sqlAddColAt (prev : Option Char) (s : List Char) : Bool :=
  boundaryStart prev &&
    (match matchLitCI "add".data prev s with
     | some (p1, r1) =>
       (match matchWS1 p1 r1 with
        | some (p2, r2) =>
          (match matchLitCI "column".data p2 r2 with
           | some (p3, r3) =>
             (match matchWS1 p3 r3 with
              | some (_, r4) =>
                (match matchWordRun none r4 with
                 | (some pc, r5) =>
                   (match matchWS1 (some pc) r5 with
                    | some (_, r6) =>
                      (match matchWord1 r6 with
                       | some (p7, r7) => notNullTail p7 r7
                       | none => false)
                    | none => false)
                 | (none, _) => false)
              | none => false)
           | none => false)
        | none => false)
     | none => false)

/-- `line_no`: count of newlines before the match offset, plus one. -/
def lineOf (content : List Char) (i : Nat) : Nat :=
  ((content.take i).filter (fun c => c = '\n')).length + 1

/-- `NonNullRule._make_violation`. -/
def NonNullRule.make_violation (migration : MigrationInfo) (line_no : Nat)
    (message : String) : RuleViolation :=
  { rule_id := "non-null-without-default", severity := ViolationSeverity.ERROR,
    file_path := migration.file_path, message := message,
    explanation := "Adding a NOT NULL column without a default value will fail on tables that already contain rows.",
    suggested_fix := "Use a two-step migration approach:\n1. Add the column as nullable with a default value.\n2. Back-fill existing rows.\n3. In a separate migration, set NOT NULL.",
    example_snippet := "# Step 1:\nALTER TABLE users ADD COLUMN role VARCHAR(50) DEFAULT 'member';\n# Step 2:\nUPDATE users SET role = 'member' WHERE role IS NULL;\n# Step 3:\nALTER TABLE users ALTER COLUMN role SET NOT NULL;",
    line_hint := some line_no }

/-- `NonNullRule._check_django_add_field`: for each `AddField` site, flag it
iff `null=False` occurs and no `default=` occurs in the 300-char window
after the site. -/
def NonNullRule.check_django_add_field (content : List Char)
    (migration : MigrationInfo) : List RuleViolation :=
  (scanMatches addFieldAt none content 0).filterMap (fun start =>
    let context := (content.drop start).take 300
    if containsMatch nullFalseAt context && !(containsMatch defaultEqAt context) then
      some (NonNullRule.make_violation migration (lineOf content start)
        "Django AddField with null=False and no default value")
    else none)

/-- `NonNullRule._check_alembic_add_column`: for each `op.add_column` site,
flag it iff `nullable=False` occurs in the 300-char window after the site
(no check for a default). -/
def NonNullRule.check_alembic_add_column (content : List Char)
    (migration : MigrationInfo) : List RuleViolation :=
  (scanMatches alembicAddColAt none content 0).filterMap (fun start =>
    let context := (content.drop start).take 300
    if containsMatch nullableFalseAt context then
      some (NonNullRule.make_violation migration (lineOf content start)
        "Alembic op.add_column() with nullable=False")
    else none)

/-- `NonNullRule.evaluate`: the raw-SQL scan, then the Django check, then
the Alembic check. -/
def NonNullRule.evaluate (migration : MigrationInfo) : List RuleViolation :=
  let content := migration.sql_content.data
  (scanMatches sqlAddColAt none content 0).map (fun start =>
    NonNullRule.make_violation migration (lineOf content start)
      "SQL ADD COLUMN NOT NULL without DEFAULT detected") ++
  NonNullRule.check_django_add_field content migration ++
  NonNullRule.check_alembic_add_column content migration


/-! ## Cycles, reference definitions and concrete instances -/

/-- A directed cycle in the graph: a nonempty edge path whose last node
returns to its start (`v ∈ g.forward u` is the edge `u → v`: "u depends on
v"). -/
def HasCycle (g : MigrationGraph) : Prop :=
  ∃ (a : String) (p : List String), p ≠ [] ∧
    List.Chain (fun u v => v ∈ g.forward u) a p ∧ p.getLast? = some a

/-- Reference definition following the spec's words for `topologicalSort`
(claim C3): repeatedly emit the lexicographically smallest node whose
remaining in-degree (count of not-yet-emitted forward dependencies) is
zero.  This is the comparison point for the claimed priority-queue
behaviour, not a model of the source. -/
def specLexMinKahnAux (g : MigrationGraph) : Nat → List String → List String
  | 0, acc => acc
  | fuel + 1, acc =>
    let ready := sortStrings (g.nodes.filter (fun x =>
      !(acc.contains x) && (g.forward x).all (fun d => acc.contains d)))
    match ready with
    | [] => acc
    | z :: _ => specLexMinKahnAux g fuel (acc ++ [z])

/-- Spec-words lexicographically-minimal Kahn order (see
`specLexMinKahnAux`). -/
def specLexMinKahn (g : MigrationGraph) : List String :=
  specLexMinKahnAux g g.nodes.length []

/-- Records forming a linear chain: each record after the first depends
exactly on its predecessor. -/
def chainRecordsFrom (prev : String) : List String → List MigrationInfo
  | [] => []
  | b :: rest => { migration_id := b, dependencies := [prev] } :: chainRecordsFrom b rest

/-- Chain records for an id list (first record has no dependencies). -/
def chainRecords : List String → List MigrationInfo
  | [] => []
  | a :: rest => { migration_id := a } :: chainRecordsFrom a rest

/-- The graph the engine builds from a linear chain of records. -/
def mkChain (ids : List String) : MigrationGraph :=
  build_graph (chainRecords ids)

/-- Forward adjacency of the chain over `done`: the predecessor of each
non-initial chain element. -/
def chainFwdR : List String → String → List String
  | a :: b :: rest, x => if x = b then [a] else chainFwdR (b :: rest) x
  | _, _ => []

/-- Reverse adjacency of the chain over `done`: the successor of each
non-final chain element. -/
def chainRevR : List String → String → List String
  | a :: b :: rest, x => if x = a then [b] else chainRevR (b :: rest) x
  | _, _ => []

/-- Record "a" with no dependencies (claim C1 failing input). -/
def recC1a : MigrationInfo := { migration_id := "a" }

/-- Record "b" declaring a dependency on "c", which is no record's id
(claim C1 failing input). -/
def recC1b : MigrationInfo := { migration_id := "b", dependencies := ["c"] }

/-- The engine-built graph for the C1 failing input. -/
def gC1 : MigrationGraph := build_graph [recC1a, recC1b]

/-- Counterexample graph for claim C3: node "b" depends on "a", and "z" is
isolated. -/
def gC3 : MigrationGraph := buildGraph [GraphOp.edge "b" "a", GraphOp.node "z"]

/-- Two-node cycle (witness for claim C4). -/
def gC4 : MigrationGraph := buildGraph [GraphOp.edge "a" "b", GraphOp.edge "b" "a"]

/-- Collaborator whose `merge_base` finds no common ancestor (witness for
claim C8). -/
def gitNoBase : GitClientModel :=
  { current_branch := "feature", merge_base := fun _ _ => "",
    commits_between := fun _ _ => 0, diff_files := fun _ _ => [] }

/-- Alembic migration whose `op.add_column` call sets `nullable=False`
together with a default specification (claim C2 counterexample). -/
def recC2 : MigrationInfo :=
  { migration_id := "def456", app_label := "alembic",
    sql_content := "op.add_column('users', sa.Column('age', sa.Integer(), nullable=False, default=0))",
    file_path := "alembic/versions/002_add_age.py" }

/-- The multiple-heads issue `analyze` appends, as a function of the head
list it reports. -/
def analyzeHeadIssueOf (heads : List String) : GraphIssue :=
  let n := heads.length
  { issue_type := "multiple_heads", severity := "critical",
    description := s!"Migration graph has {n} heads – this will cause merge conflicts. Create a merge migration to resolve.",
    nodes := heads }

/-- The per-cycle issue `analyze` appends. -/
def cycleIssueOf (cycle : List String) : GraphIssue :=
  let path := String.intercalate " → " cycle
  { issue_type := "cycle", severity := "critical",
    description := s!"Circular dependency detected: {path}. This will prevent migrations from running.",
    nodes := cycle }

/-- The per-missing-dependency issue `analyze` appends. -/
def missingIssueOf (p : String × String) : GraphIssue :=
  let node := p.1
  let dep := p.2
  { issue_type := "missing_dependency", severity := "critical",
    description := s!"Migration '{node}' depends on '{dep}' which does not exist.",
    nodes := [p.1, p.2] }

/-- The combined orphan warning `analyze` appends. -/
def orphanIssueOf (orphans : List String) : GraphIssue :=
  let n := orphans.length
  { issue_type := "orphan", severity := "warning",
    description := s!"Found {n} orphan migration(s) with no dependencies or dependents.",
    nodes := orphans }

/-! ## Invariants for the claim C4 proofs -/

/-- Loop invariant of Kahn's algorithm (`topological_sort`): the queue and
result hold distinct graph nodes, the in-degree function counts the
not-yet-emitted forward dependencies, queued nodes have all dependencies
emitted, and every emitted node's dependencies appear earlier in the
result. -/
structure KahnInv (g : MigrationGraph) (deg : String → Int)
    (queue result : List String) : Prop where
  qSub : ∀ x ∈ queue, x ∈ g.nodes
  rSub : ∀ x ∈ result, x ∈ g.nodes
  nd : (result ++ queue).Nodup
  degEq : ∀ x ∈ g.nodes,
    deg x = (((g.forward x).filter (fun d => !(decide (d ∈ result)))).length : Int)
  qZero : ∀ x ∈ queue, ∀ d ∈ g.forward x, d ∈ result
  ranked : ∀ (i : Nat) (hi : i < result.length),
    ∀ d ∈ g.forward (result.get ⟨i, hi⟩),
    ∃ j, j < i ∧ ∃ hj : j < result.length, result.get ⟨j, hj⟩ = d

/-- Invariant of the `detect_cycles` DFS, with the ghost list `bl` of nodes
in order of first blackening.  Stack entries are written head-at-top; in a
decomposition `s1 ++ e :: s2` the entries of `s1` are above `e`. -/
structure DfsInv (g : MigrationGraph) (s : DfsState) (bl : List String) : Prop where
  colorDom : ∀ x, x ∉ g.nodes → s.color x = Color.white
  stackDom : ∀ e ∈ s.stack, e.1 ∈ g.nodes
  blackMem : ∀ x, s.color x = Color.black → x ∈ bl
  blNotWhite : ∀ x ∈ bl, s.color x ≠ Color.white
  blNodup : bl.Nodup
  blW : ∀ (i : Nat) (hi : i < bl.length) (d : String),
    d ∈ g.forward (bl.get ⟨i, hi⟩) →
    s.cycles ≠ [] ∨ ∃ j, j < i ∧ ∃ hj : j < bl.length, bl.get ⟨j, hj⟩ = d
  c0 : ∀ s1 x s2, s.stack = s1 ++ (x, true) :: s2 →
    ∀ d ∈ g.forward x, s.color d ≠ Color.white ∨ (d, false) ∈ s1
  cstar : ∀ s1 x s2, s.stack = s1 ++ (x, true) :: s2 →
    ∀ d ∈ g.forward x,
      s.cycles ≠ [] ∨ d ∈ bl ∨ (d, false) ∈ s1 ∨ (d, true) ∈ s1
  dinv : ∀ s1 x s2, s.stack = s1 ++ (x, false) :: s2 →
    s.color x = Color.gray → (x, true) ∈ s1
  binv : ∀ x, s.color x = Color.black →
    ∀ d ∈ g.forward x, s.color d ≠ Color.white
  finv : ∀ x, s.color x = Color.gray → (x, true) ∈ s.stack
  tinv : ∀ x, (x, true) ∈ s.stack → s.color x ≠ Color.white
  cyNE : ∀ c ∈ s.cycles, c ≠ []

/-- Termination potential for the DFS inner loop: each iteration strictly
decreases it (given `DfsInv`). -/
def dfsPhi (g : MigrationGraph) (s : DfsState) : Nat :=
  ((g.nodes.filter (fun x => s.color x = Color.white)).map
    (fun x => 2 * (g.forward x).length + 3)).sum +
  2 * s.stack.countP (fun e => !e.2) + s.stack.countP (fun e => e.2)

/-- The body of the `for dep in sorted(...)` loop of `detect_cycles`, as a
named step function (identical to the lambda inside `processDeps`). -/
def depStep (g : MigrationGraph) (node : String) (st : DfsState)
    (dep : String) : DfsState :=
  match st.color dep with
  | Color.gray =>
    { st with cycles :=
        st.cycles ++ [buildCycle st.parent dep node (g.nodes.length + 1)] }
  | Color.white =>
    { st with parent := Function.update st.parent dep (some node),
              stack := (dep, false) :: st.stack }
  | Color.black => st

/-- One iteration of the `for start in sorted(self._nodes)` loop of
`detect_cycles`, as a named step function. -/
def dfsOuterStep (g : MigrationGraph) (fuel : Nat) (s : DfsState)
    (start : String) : DfsState :=
  if s.color start = Color.white then
    dfsInner g fuel { s with stack := [(start, false)] }
  else s

/-! ## Supporting lemmas and claim theorems -/

theorem perm_insertSorted (x : String) (l : List String) :
    (insertSorted x l).Perm (x :: l) := by
  induction l with
  | nil => simp [insertSorted]
  | cons y ys ih =>
    simp only [insertSorted]
    split
    · exact List.Perm.refl _
    · exact (ih.cons y).trans (List.Perm.swap x y ys)

theorem perm_sortStrings (l : List String) : (sortStrings l).Perm l := by
  induction l with
  | nil => exact List.Perm.refl _
  | cons x xs ih => exact (perm_insertSorted x (sortStrings xs)).trans (ih.cons x)

theorem mem_sortStrings {x : String} {l : List String} :
    x ∈ sortStrings l ↔ x ∈ l :=
  (perm_sortStrings l).mem_iff

theorem nodup_sortStrings {l : List String} (h : l.Nodup) :
    (sortStrings l).Nodup :=
  (perm_sortStrings l).nodup_iff.mpr h

theorem length_sortStrings (l : List String) :
    (sortStrings l).length = l.length :=
  (perm_sortStrings l).length_eq

theorem mem_addToSet {l : List String} {x y : String} :
    y ∈ addToSet l x ↔ y ∈ l ∨ y = x := by
  unfold addToSet
  split
  · rename_i hx
    constructor
    · exact fun h => Or.inl h
    · rintro (h | rfl)
      · exact h
      · exact hx
  · simp

theorem addToSet_nodup {l : List String} (h : l.Nodup) (x : String) :
    (addToSet l x).Nodup := by
  unfold addToSet
  split
  · exact h
  · rename_i hx
    simpa using List.Nodup.append h (by simp) (by simpa using fun hmem => hx hmem)

theorem addToSet_ne_nil (l : List String) (x : String) : addToSet l x ≠ [] := by
  unfold addToSet
  split
  · rename_i hx
    intro h
    subst h
    simp at hx
  · simp

theorem addToSet_eq_self_of_mem {l : List String} {x : String} (h : x ∈ l) :
    addToSet l x = l := by
  simp [addToSet, h]

theorem self_mem_addToSet (l : List String) (x : String) : x ∈ addToSet l x := by
  simp [mem_addToSet]

theorem wf_empty : WF MigrationGraph.empty := by
  constructor <;> simp [MigrationGraph.empty]

theorem WF.wf_add_node {g : MigrationGraph} (h : WF g) (n : String) :
    WF (g.add_node n) := by
  obtain ⟨h1, h2, h3, h4, h5, h6, h7, h8, h9, h10⟩ := h
  refine ⟨addToSet_nodup h1 n, h2, ?_, h4, h5, h6, ?_, h8, ?_, h10⟩
  · intro k hk
    exact mem_addToSet.mpr (Or.inl (h3 k hk))
  · intro x d hd
    exact mem_addToSet.mpr (Or.inl (h7 x d hd))
  · intro x u hu
    exact mem_addToSet.mpr (Or.inl (h9 x u hu))

theorem add_edge_forward_mem {g : MigrationGraph} {n d x e : String} :
    e ∈ (g.add_edge n d).forward x ↔ e ∈ g.forward x ∨ (x = n ∧ e = d) := by
  simp only [MigrationGraph.add_edge]
  by_cases hxn : x = n
  · rw [if_pos hxn, mem_addToSet, hxn]
    tauto
  · rw [if_neg hxn]
    tauto

theorem add_edge_reverse_mem {g : MigrationGraph} {n d x u : String} :
    u ∈ (g.add_edge n d).reverse x ↔ u ∈ g.reverse x ∨ (x = d ∧ u = n) := by
  simp only [MigrationGraph.add_edge]
  by_cases hxd : x = d
  · rw [if_pos hxd, mem_addToSet, hxd]
    tauto
  · rw [if_neg hxd]
    tauto

theorem add_edge_nodes_mem {g : MigrationGraph} {n d x : String} :
    x ∈ (g.add_edge n d).nodes ↔ x ∈ g.nodes ∨ x = n ∨ x = d := by
  simp only [MigrationGraph.add_edge, mem_addToSet]
  tauto

theorem add_edge_forward_other {g : MigrationGraph} {n d x : String}
    (hxn : x ≠ n) : (g.add_edge n d).forward x = g.forward x := by
  simp only [MigrationGraph.add_edge, if_neg hxn]

theorem add_edge_forward_self {g : MigrationGraph} {n d : String} :
    (g.add_edge n d).forward n = addToSet (g.forward n) d := by
  simp [MigrationGraph.add_edge]

theorem WF.wf_add_edge {g : MigrationGraph} (h : WF g) (n d : String) :
    WF (g.add_edge n d) := by
  obtain ⟨h1, h2, h3, h4, h5, h6, h7, h8, h9, h10⟩ := h
  have hkeys : (g.add_edge n d).fwdKeys =
      if g.forward n = [] then g.fwdKeys ++ [n] else g.fwdKeys := rfl
  constructor
  · exact addToSet_nodup (addToSet_nodup h1 n) d
  · -- fwdKeysNodup
    rw [hkeys]
    split
    · rename_i hn
      refine List.Nodup.append h2 (by simp) ?_
      intro a ha hb
      simp only [List.mem_singleton] at hb
      subst hb
      exact (h5 a ha) hn
    · exact h2
  · -- fwdKeysSub
    intro k hk
    rw [hkeys] at hk
    have : k ∈ g.fwdKeys ∨ k = n := by
      revert hk
      split
      · intro hk
        simpa using List.mem_append.mp hk
      · exact fun hk => Or.inl hk
    rcases this with hk' | rfl
    · exact add_edge_nodes_mem.mpr (Or.inl (h3 k hk'))
    · exact add_edge_nodes_mem.mpr (Or.inr (Or.inl rfl))
  · -- fwdSupport
    intro x hx
    rw [hkeys]
    split
    · by_cases hxn : x = n
      · exact List.mem_append.mpr (Or.inr (by simp [hxn]))
      · rw [add_edge_forward_other hxn] at hx
        exact List.mem_append.mpr (Or.inl (h4 x hx))
    · rename_i hn
      by_cases hxn : x = n
      · rw [hxn]
        exact h4 n hn
      · rw [add_edge_forward_other hxn] at hx
        exact h4 x hx
  · -- fwdKeysNonempty
    intro k hk
    rw [hkeys] at hk
    by_cases hkn : k = n
    · subst hkn
      rw [add_edge_forward_self]
      exact addToSet_ne_nil _ _
    · rw [add_edge_forward_other hkn]
      refine h5 k ?_
      revert hk
      split
      · intro hk
        rcases List.mem_append.mp hk with hk | hk
        · exact hk
        · simp only [List.mem_singleton] at hk
          exact absurd hk hkn
      · exact fun hk => hk
  · -- fwdNodup
    intro x
    by_cases hxn : x = n
    · subst hxn
      rw [add_edge_forward_self]
      exact addToSet_nodup (h6 _) _
    · rw [add_edge_forward_other hxn]
      exact h6 x
  · -- fwdTgt
    intro x e he
    rcases add_edge_forward_mem.mp he with he | ⟨_, rfl⟩
    · exact add_edge_nodes_mem.mpr (Or.inl (h7 x e he))
    · exact add_edge_nodes_mem.mpr (Or.inr (Or.inr rfl))
  · -- revNodup
    intro x
    simp only [MigrationGraph.add_edge]
    split
    · exact addToSet_nodup (h8 d) n
    · exact h8 x
  · -- revTgt
    intro x u hu
    rcases add_edge_reverse_mem.mp hu with hu | ⟨_, rfl⟩
    · exact add_edge_nodes_mem.mpr (Or.inl (h9 x u hu))
    · exact add_edge_nodes_mem.mpr (Or.inr (Or.inl rfl))
  · -- fwdRev
    intro x e
    rw [add_edge_forward_mem, add_edge_reverse_mem]
    constructor
    · rintro (he | ⟨rfl, rfl⟩)
      · exact Or.inl ((h10 x e).mp he)
      · exact Or.inr ⟨rfl, rfl⟩
    · rintro (he | ⟨rfl, rfl⟩)
      · exact Or.inl ((h10 x e).mpr he)
      · exact Or.inr ⟨rfl, rfl⟩

theorem WF.wf_applyOp {g : MigrationGraph} (h : WF g) (op : GraphOp) :
    WF (applyOp g op) := by
  cases op with
  | node i => exact h.wf_add_node i
  | edge n d => exact h.wf_add_edge n d

theorem wf_foldl_applyOp {g : MigrationGraph} (h : WF g) (ops : List GraphOp) :
    WF (ops.foldl applyOp g) := by
  induction ops generalizing g with
  | nil => exact h
  | cons op rest ih => exact ih (h.wf_applyOp op)

theorem wf_buildGraph (ops : List GraphOp) : WF (buildGraph ops) :=
  wf_foldl_applyOp wf_empty ops

theorem wf_foldl_add_edge {g : MigrationGraph} (h : WF g) (id : String)
    (deps : List String) :
    WF (deps.foldl (fun g' dep => g'.add_edge id dep) g) := by
  induction deps generalizing g with
  | nil => exact h
  | cons dep rest ih => exact ih (h.wf_add_edge id dep)

theorem wf_build_graph (migrations : List MigrationInfo) :
    WF (build_graph migrations) := by
  unfold build_graph
  generalize hg : MigrationGraph.empty = g0
  have h0 : WF g0 := hg ▸ wf_empty
  clear hg
  induction migrations generalizing g0 with
  | nil => exact h0
  | cons m rest ih => exact ih _ (wf_foldl_add_edge (h0.wf_add_node _) _ _)

/-- For every well-formed graph all forward-edge targets are nodes, so
`missing_dependencies` is empty: the detection is unreachable through the
public constructors (`add_edge` always registers the dependency as a node). -/
theorem missing_dependencies_eq_nil {g : MigrationGraph} (h : WF g) :
    g.missing_dependencies = [] := by
  unfold MigrationGraph.missing_dependencies
  rw [List.flatMap_eq_nil_iff]
  intro node _
  rw [List.map_eq_nil_iff, List.filter_eq_nil_iff]
  intro dep hdep
  have : dep ∈ g.forward node := mem_sortStrings.mp hdep
  simp [h.fwdTgt node dep this]


theorem migrationGraph_ext {g₁ g₂ : MigrationGraph} (h1 : g₁.nodes = g₂.nodes)
    (h2 : g₁.fwdKeys = g₂.fwdKeys) (h3 : g₁.forward = g₂.forward)
    (h4 : g₁.reverse = g₂.reverse) : g₁ = g₂ := by
  cases g₁
  cases g₂
  cases h1
  cases h2
  cases h3
  cases h4
  rfl

theorem add_edge_reverse_self {g : MigrationGraph} {n d : String} :
    (g.add_edge n d).reverse d = addToSet (g.reverse d) n := by
  simp [MigrationGraph.add_edge]

theorem add_edge_reverse_other {g : MigrationGraph} {n d x : String}
    (hxd : x ≠ d) : (g.add_edge n d).reverse x = g.reverse x := by
  simp only [MigrationGraph.add_edge, if_neg hxd]

theorem add_edge_fwdKeys {g : MigrationGraph} {n d : String} :
    (g.add_edge n d).fwdKeys =
      if g.forward n = [] then g.fwdKeys ++ [n] else g.fwdKeys := rfl

theorem n_mem_add_edge_nodes (g : MigrationGraph) (n d : String) :
    n ∈ (g.add_edge n d).nodes :=
  add_edge_nodes_mem.mpr (Or.inr (Or.inl rfl))

theorem d_mem_add_edge_nodes (g : MigrationGraph) (n d : String) :
    d ∈ (g.add_edge n d).nodes :=
  add_edge_nodes_mem.mpr (Or.inr (Or.inr rfl))

/-- C9: `addNode` and `addEdge` are idempotent with set semantics — a second
identical call leaves the node set, forward-edge map, reverse-edge map (and
even the forward-key order) literally unchanged — and `addEdge` inserts both
endpoints into the node set. -/
theorem C9_add_node_add_edge_idempotent :
    (∀ (g : MigrationGraph) (n : String),
      (g.add_node n).add_node n = g.add_node n) ∧
    (∀ (g : MigrationGraph) (n d : String),
      (g.add_edge n d).add_edge n d = g.add_edge n d) ∧
    (∀ (g : MigrationGraph) (n d : String),
      n ∈ (g.add_edge n d).nodes ∧ d ∈ (g.add_edge n d).nodes ∧
      n ∈ (g.add_node n).nodes) := by
  refine ⟨?_, ?_, ?_⟩
  · intro g n
    apply migrationGraph_ext
    · show addToSet (addToSet g.nodes n) n = addToSet g.nodes n
      exact addToSet_eq_self_of_mem (self_mem_addToSet _ _)
    · rfl
    · rfl
    · rfl
  · intro g n d
    have hnA : n ∈ (g.add_edge n d).nodes := n_mem_add_edge_nodes g n d
    have hdA : d ∈ (g.add_edge n d).nodes := d_mem_add_edge_nodes g n d
    apply migrationGraph_ext
    · show addToSet (addToSet (g.add_edge n d).nodes n) d = (g.add_edge n d).nodes
      rw [addToSet_eq_self_of_mem hnA, addToSet_eq_self_of_mem hdA]
    · rw [add_edge_fwdKeys, add_edge_forward_self,
        if_neg (addToSet_ne_nil (g.forward n) d)]
    · funext x
      show (if x = n then addToSet ((g.add_edge n d).forward n) d
            else (g.add_edge n d).forward x) = (g.add_edge n d).forward x
      by_cases hxn : x = n
      · rw [if_pos hxn, hxn, add_edge_forward_self,
          addToSet_eq_self_of_mem (self_mem_addToSet _ _)]
      · rw [if_neg hxn]
    · funext x
      show (if x = d then addToSet ((g.add_edge n d).reverse d) n
            else (g.add_edge n d).reverse x) = (g.add_edge n d).reverse x
      by_cases hxd : x = d
      · rw [if_pos hxd, hxd, add_edge_reverse_self,
          addToSet_eq_self_of_mem (self_mem_addToSet _ _)]
      · rw [if_neg hxd]
  · intro g n d
    exact ⟨n_mem_add_edge_nodes g n d, d_mem_add_edge_nodes g n d,
      self_mem_addToSet _ _⟩

/-- C5: `totalScore` is the sum of the findings' scores and the derived
severity follows boundary-exact bands: `≤ 3` LOW, `4–6` MEDIUM, `7–9` HIGH,
`≥ 10` CRITICAL (checked both as band characterisations and at the
boundary scores 0, 3, 4, 6, 7, 9, 10, 100). -/
theorem C5_total_score_and_severity_bands :
    (∀ r : RiskReport, r.total_score = (r.findings.map (fun f => f.score)).sum) ∧
    (∀ r : RiskReport, r.severity = Severity.from_score r.total_score) ∧
    (∀ s : Int,
      (Severity.from_score s = Severity.LOW ↔ s ≤ 3) ∧
      (Severity.from_score s = Severity.MEDIUM ↔ 4 ≤ s ∧ s ≤ 6) ∧
      (Severity.from_score s = Severity.HIGH ↔ 7 ≤ s ∧ s ≤ 9) ∧
      (Severity.from_score s = Severity.CRITICAL ↔ 10 ≤ s)) ∧
    Severity.from_score 0 = Severity.LOW ∧
    Severity.from_score 3 = Severity.LOW ∧
    Severity.from_score 4 = Severity.MEDIUM ∧
    Severity.from_score 6 = Severity.MEDIUM ∧
    Severity.from_score 7 = Severity.HIGH ∧
    Severity.from_score 9 = Severity.HIGH ∧
    Severity.from_score 10 = Severity.CRITICAL ∧
    Severity.from_score 100 = Severity.CRITICAL := by
  refine ⟨fun r => rfl, fun r => rfl, fun s => ?_, by decide, by decide,
    by decide, by decide, by decide, by decide, by decide, by decide⟩
  unfold Severity.from_score
  refine ⟨?_, ?_, ?_, ?_⟩ <;> split_ifs with h1 h2 h3 <;> simp <;> omega

/-- C10: `passed` is determined by the finding count, not the score: it is
true iff the findings list is empty, `add` always makes it false (for every
category, weight table and hence score — including score 0 under a custom
weight table). -/
theorem C10_passed_iff_no_findings :
    (∀ r : RiskReport, r.passed = true ↔ r.findings = []) ∧
    (∀ (r : RiskReport) (c desc fp : String) (w : Option (List (String × Int))),
      (r.add c desc fp w).passed = false) ∧
    ((RiskReport.add { findings := [] } "custom" "d" "" (some [("custom", 0)])).findings.map
      (fun f => f.score) = [0]) ∧
    (RiskReport.add { findings := [] } "custom" "d" "" (some [("custom", 0)])).passed = false := by
  refine ⟨fun r => ?_, fun r c desc fp w => ?_, by decide, by decide⟩
  · simp [RiskReport.passed, List.length_eq_zero]
  · simp [RiskReport.passed, RiskReport.add]

/-- C8: when the collaborator's `mergeBase` returns empty for the current
and target branches, `compare` returns normally with exactly one suggestion
and default/empty fields. -/
theorem C8_compare_no_merge_base (git : GitClientModel) (target : String)
    (h : git.merge_base git.current_branch target = "") :
    BranchComparator.compare git target =
      { current_branch := git.current_branch, target_branch := target,
        is_behind := false, commits_behind := 0,
        current_only := [], target_only := [], parallel_migrations := [],
        suggestions :=
          ["Could not determine merge base. Ensure both branches share a common ancestor."] } ∧
    (BranchComparator.compare git target).suggestions.length = 1 := by
  have hc : BranchComparator.compare git target =
      { current_branch := git.current_branch, target_branch := target,
        suggestions :=
          ["Could not determine merge base. Ensure both branches share a common ancestor."] } := by
    unfold BranchComparator.compare
    simp [h]
  refine ⟨hc, ?_⟩
  rw [hc]
  rfl

/-- Witness for C8 at a concrete collaborator model. -/
theorem C8_compare_no_merge_base_witness :
    gitNoBase.merge_base gitNoBase.current_branch "origin/main" = "" ∧
    BranchComparator.compare gitNoBase "origin/main" =
      { current_branch := "feature", target_branch := "origin/main",
        is_behind := false, commits_behind := 0,
        current_only := [], target_only := [], parallel_migrations := [],
        suggestions :=
          ["Could not determine merge base. Ensure both branches share a common ancestor."] } :=
  ⟨rfl, (C8_compare_no_merge_base gitNoBase "origin/main" rfl).1⟩

/-- C1: the missing-dependency report is unreachable for engine-built
graphs: `_build_graph` adds every declared dependency as an edge and
`add_edge` registers the dependency in the node set, so
`missing_dependencies()` is `[]` for every record list — in particular for
records `a` (no deps) and `b` (depending on the nonexistent `c`), where the
claim expects the pair `(b, c)` and a critical `missing_dependency` issue,
`analyze()` reports only `multiple_heads` and `orphan` issues. -/
theorem C1_missing_dependency_detection_unreachable :
    (∀ migrations : List MigrationInfo,
      (build_graph migrations).missing_dependencies = []) ∧
    "c" ∈ gC1.nodes ∧
    gC1.missing_dependencies = [] ∧
    gC1.analyze.map (fun i => i.issue_type) = ["multiple_heads", "orphan"] := by
  refine ⟨fun migrations => missing_dependencies_eq_nil (wf_build_graph migrations),
    by decide, by decide, ?_⟩
  decide

theorem kahnVisit_snd (deps : List String) :
    ∀ (deg : String → Int) (queue : List String),
      ∃ extra, (kahnVisit deg queue deps).2 = queue ++ extra := by
  induction deps with
  | nil => exact fun deg queue => ⟨[], by simp [kahnVisit]⟩
  | cons dep rest ih =>
    intro deg queue
    simp only [kahnVisit]
    split
    · obtain ⟨extra, hex⟩ := ih _ (queue ++ [dep])
      exact ⟨[dep] ++ extra, by rw [hex, List.append_assoc]⟩
    · exact ih _ queue

theorem kahnLoop_fst_take (g : MigrationGraph) :
    ∀ (fuel : Nat) (deg : String → Int) (queue result : List String),
      ∃ t, (kahnLoop g fuel deg queue result).1 =
        result ++ queue.take fuel ++ t := by
  intro fuel
  induction fuel with
  | zero => exact fun deg queue result => ⟨[], by simp [kahnLoop]⟩
  | succ f ih =>
    intro deg queue result
    match queue with
    | [] => exact ⟨[], by simp [kahnLoop]⟩
    | node :: rest =>
      simp only [kahnLoop]
      obtain ⟨extra, hex⟩ := kahnVisit_snd (sortStrings (g.reverse node))
        deg rest
      obtain ⟨t, ht⟩ := ih (kahnVisit deg rest (sortStrings (g.reverse node))).1
        (kahnVisit deg rest (sortStrings (g.reverse node))).2 (result ++ [node])
      refine ⟨extra.take (f - rest.length) ++ t, ?_⟩
      rw [ht, hex, List.take_append_eq_append_take, List.take_cons_succ]
      simp [List.append_assoc]

/-- C3 (amended): `topological_sort` seeds a FIFO queue with the sorted
zero-in-degree nodes and appends newly freed dependents behind it, so every
successful result starts with exactly the sorted initially-zero-in-degree
nodes (it is not the lexicographically-smallest-available order). -/
theorem C3_fifo_seed_order (g : MigrationGraph) (l : List String)
    (h : g.topological_sort = Except.ok l) :
    ∃ t, l = sortStrings (g.nodes.filter (fun n => (g.forward n).length == 0)) ++ t := by
  set queue0 := sortStrings (g.nodes.filter (fun n => (g.forward n).length == 0)) with hq
  have hdef : g.topological_sort =
      (if (kahnLoop g g.nodes.length (fun n => ((g.forward n).length : Int))
            queue0 []).1.length = g.nodes.length
       then Except.ok (kahnLoop g g.nodes.length
            (fun n => ((g.forward n).length : Int)) queue0 []).1
       else Except.error
         "Migration graph contains cycles – topological sort is impossible.") := rfl
  rw [hdef] at h
  split at h
  · rename_i hlen
    obtain ⟨t, ht⟩ := kahnLoop_fst_take g g.nodes.length
      (fun n => ((g.forward n).length : Int)) queue0 []
    have hq0 : queue0.take g.nodes.length = queue0 := by
      apply List.take_of_length_le
      rw [hq, length_sortStrings]
      exact List.length_filter_le _ _
    obtain rfl : _ = l := Except.ok.inj h
    rw [ht, hq0]
    exact ⟨t, by simp⟩
  · exact absurd h (by simp)

/-- C3 (counterexample): on the graph where `b` depends on `a` and `z` is
isolated, the code returns `[a, z, b]` (FIFO), while the claimed
lexicographically-smallest-available order is `[a, b, z]`. -/
theorem C3_counterexample_not_priority_order :
    gC3.topological_sort = Except.ok ["a", "z", "b"] ∧
    specLexMinKahn gC3 = ["a", "b", "z"] ∧
    (["a", "z", "b"] : List String) ≠ ["a", "b", "z"] :=
  ⟨rfl, rfl, by decide⟩

/-- Witness for the amended C3 theorem at the concrete graph `gC3`. -/
theorem C3_fifo_seed_order_witness :
    gC3.topological_sort = Except.ok ["a", "z", "b"] ∧
    ∃ t, (["a", "z", "b"] : List String) =
      sortStrings (gC3.nodes.filter (fun n => (gC3.forward n).length == 0)) ++ t :=
  ⟨rfl, C3_fifo_seed_order gC3 ["a", "z", "b"] rfl⟩

theorem filterMap_ite {α β : Type} (l : List α) (p : α → Bool) (f : α → β) :
    l.filterMap (fun a => if p a then some (f a) else none) =
      (l.filter p).map f := by
  induction l with
  | nil => rfl
  | cons a t ih => by_cases h : p a <;> simp [h, ih]

/-- C2 (amended): the co-occurrence requirement (disallow-null signal
together with a no-default signal inside the 300-char window) governs only
the Django `AddField` form; the Alembic `op.add_column` form is flagged on
`nullable=False` alone, regardless of any default specification in the
window. -/
theorem C2_window_semantics (content : List Char) (m : MigrationInfo) :
    NonNullRule.check_alembic_add_column content m =
      ((scanMatches alembicAddColAt none content 0).filter
        (fun start => containsMatch nullableFalseAt ((content.drop start).take 300))).map
      (fun start => NonNullRule.make_violation m (lineOf content start)
        "Alembic op.add_column() with nullable=False") ∧
    NonNullRule.check_django_add_field content m =
      ((scanMatches addFieldAt none content 0).filter
        (fun start => containsMatch nullFalseAt ((content.drop start).take 300) &&
          !(containsMatch defaultEqAt ((content.drop start).take 300)))).map
      (fun start => NonNullRule.make_violation m (lineOf content start)
        "Django AddField with null=False and no default value") ∧
    NonNullRule.evaluate m =
      (scanMatches sqlAddColAt none m.sql_content.data 0).map (fun start =>
        NonNullRule.make_violation m (lineOf m.sql_content.data start)
          "SQL ADD COLUMN NOT NULL without DEFAULT detected") ++
      NonNullRule.check_django_add_field m.sql_content.data m ++
      NonNullRule.check_alembic_add_column m.sql_content.data m := by
  refine ⟨?_, ?_, rfl⟩
  · unfold NonNullRule.check_alembic_add_column
    exact filterMap_ite _ _ _
  · unfold NonNullRule.check_django_add_field
    exact filterMap_ite _ _ _

/-- C2 (counterexample): a single `op.add_column` call followed within the
300-char window by `nullable=False` *and* a default specification
(`default=0`) — the claim says `evaluate` returns no violation for this
call, but the Alembic check ignores the default and flags it. -/
theorem C2_counterexample_default_still_flagged :
    scanMatches alembicAddColAt none recC2.sql_content.data 0 = [0] ∧
    containsMatch nullableFalseAt ((recC2.sql_content.data.drop 0).take 300) = true ∧
    containsMatch defaultEqAt ((recC2.sql_content.data.drop 0).take 300) = true ∧
    NonNullRule.evaluate recC2 =
      [NonNullRule.make_violation recC2 1 "Alembic op.add_column() with nullable=False"] := by
  refine ⟨by decide, by decide, by decide, rfl⟩


theorem sortStrings_singleton (x : String) : sortStrings [x] = [x] := rfl

theorem chainFwdR_cons_cons (a b : String) (rest : List String) (x : String) :
    chainFwdR (a :: b :: rest) x =
      if x = b then [a] else chainFwdR (b :: rest) x := by
  simp [chainFwdR]

theorem chainRevR_cons_cons (a b : String) (rest : List String) (x : String) :
    chainRevR (a :: b :: rest) x =
      if x = a then [b] else chainRevR (b :: rest) x := by
  simp [chainRevR]

theorem chainFwdR_ne_nil_iff (l : List String) (x : String) :
    chainFwdR l x ≠ [] ↔ x ∈ l.tail := by
  induction l with
  | nil => simp [chainFwdR]
  | cons a rest ih =>
    cases rest with
    | nil => simp [chainFwdR]
    | cons b rest' =>
      rw [chainFwdR_cons_cons]
      by_cases hxb : x = b
      · simp [hxb]
      · rw [if_neg hxb]
        simp only [List.tail_cons] at ih ⊢
        rw [ih]
        simp [hxb]

theorem chainRevR_ne_nil_iff (l : List String) (x : String) :
    chainRevR l x ≠ [] ↔ x ∈ l.dropLast := by
  induction l with
  | nil => simp [chainRevR]
  | cons a rest ih =>
    cases rest with
    | nil => simp [chainRevR]
    | cons b rest' =>
      rw [chainRevR_cons_cons]
      by_cases hxa : x = a
      · simp [hxa]
      · rw [if_neg hxa]
        rw [ih]
        simp [List.dropLast_cons₂, hxa]

theorem chainFwdR_not_mem {l : List String} {x : String} (h : x ∉ l) :
    chainFwdR l x = [] := by
  by_contra hne
  exact h (List.mem_of_mem_tail ((chainFwdR_ne_nil_iff l x).mp hne))

theorem chainFwdR_append (b : String) :
    ∀ (done : List String) (hne : done ≠ []), b ∉ done → ∀ x,
      chainFwdR (done ++ [b]) x =
        if x = b then [done.getLast hne] else chainFwdR done x := by
  intro done
  induction done with
  | nil => intro hne; exact absurd rfl hne
  | cons a rest ih =>
    intro hne hb x
    cases rest with
    | nil =>
      show chainFwdR [a, b] x = if x = b then [a] else chainFwdR [a] x
      rw [chainFwdR_cons_cons]
      by_cases hxb : x = b <;> simp [hxb, chainFwdR]
    | cons c rest' =>
      have hb' : b ∉ c :: rest' := fun hm => hb (List.mem_cons_of_mem a hm)
      have hcb : ¬(c = b) := fun h => hb' (h ▸ List.mem_cons_self c rest')
      have hgl : (a :: c :: rest').getLast hne = (c :: rest').getLast (by simp) :=
        List.getLast_cons (by simp)
      rw [show (a :: c :: rest') ++ [b] = a :: c :: (rest' ++ [b]) by simp]
      rw [chainFwdR_cons_cons a c (rest' ++ [b]) x, chainFwdR_cons_cons a c rest' x]
      by_cases hxc : x = c
      · simp [hxc, hcb]
      · rw [if_neg hxc]
        rw [show c :: (rest' ++ [b]) = (c :: rest') ++ [b] by simp]
        rw [ih (by simp) hb' x, hgl]
        by_cases hxb : x = b
        · rw [if_pos hxb, if_pos hxb]
        · rw [if_neg hxb, if_neg hxb, if_neg hxc]

theorem chainRevR_append (b : String) :
    ∀ (done : List String) (hne : done ≠ []), done.Nodup → ∀ x,
      chainRevR (done ++ [b]) x =
        if x = done.getLast hne then [b] else chainRevR done x := by
  intro done
  induction done with
  | nil => intro hne; exact absurd rfl hne
  | cons a rest ih =>
    intro hne hnd x
    cases rest with
    | nil =>
      show chainRevR [a, b] x = if x = a then [b] else chainRevR [a] x
      rw [chainRevR_cons_cons]
      by_cases hxa : x = a <;> simp [hxa, chainRevR, List.getLast]
    | cons c rest' =>
      have hnd' : (c :: rest').Nodup := hnd.of_cons
      have ha : a ∉ c :: rest' := (List.nodup_cons.mp hnd).1
      have hgl : (a :: c :: rest').getLast hne = (c :: rest').getLast (by simp) :=
        List.getLast_cons (by simp)
      have hagl : ¬(a = (a :: c :: rest').getLast hne) := by
        rw [hgl]
        intro h
        exact ha (h ▸ List.getLast_mem (by simp))
      rw [show (a :: c :: rest') ++ [b] = a :: ((c :: rest') ++ [b]) by simp]
      by_cases hxa : x = a
      · rw [show a :: ((c :: rest') ++ [b]) = a :: c :: (rest' ++ [b]) by simp]
        rw [chainRevR_cons_cons, if_pos hxa, if_neg (hxa ▸ hagl),
          chainRevR_cons_cons, if_pos hxa]
      · rw [show a :: ((c :: rest') ++ [b]) = a :: c :: (rest' ++ [b]) by simp]
        rw [chainRevR_cons_cons, if_neg hxa]
        rw [show c :: (rest' ++ [b]) = (c :: rest') ++ [b] by simp]
        rw [ih (by simp) hnd' x, hgl, chainRevR_cons_cons, if_neg hxa]

theorem getLast_not_mem_dropLast (l : List String) (hne : l ≠ []) (hnd : l.Nodup) :
    l.getLast hne ∉ l.dropLast := by
  have hsplit : l.dropLast ++ [l.getLast hne] = l := List.dropLast_append_getLast hne
  rw [← hsplit] at hnd
  rcases List.nodup_append.mp hnd with ⟨_, _, hdisj⟩
  intro hmem
  exact hdisj hmem (List.mem_singleton_self _)

theorem chainRevR_getLast (l : List String) (hne : l ≠ []) (hnd : l.Nodup) :
    chainRevR l (l.getLast hne) = [] := by
  by_contra h
  exact getLast_not_mem_dropLast l hne hnd ((chainRevR_ne_nil_iff l _).mp h)

theorem chain_build_spec :
    ∀ (rest done : List String) (hne : done ≠ []) (g : MigrationGraph),
      (done ++ rest).Nodup →
      g.nodes = done →
      (∀ x, g.forward x = chainFwdR done x) →
      (∀ x, g.reverse x = chainRevR done x) →
      ((chainRecordsFrom (done.getLast hne) rest).foldl
        (fun g m => m.dependencies.foldl
          (fun g' dep => g'.add_edge m.migration_id dep)
          (g.add_node m.migration_id)) g).nodes = done ++ rest ∧
      (∀ x, ((chainRecordsFrom (done.getLast hne) rest).foldl
        (fun g m => m.dependencies.foldl
          (fun g' dep => g'.add_edge m.migration_id dep)
          (g.add_node m.migration_id)) g).forward x = chainFwdR (done ++ rest) x) ∧
      (∀ x, ((chainRecordsFrom (done.getLast hne) rest).foldl
        (fun g m => m.dependencies.foldl
          (fun g' dep => g'.add_edge m.migration_id dep)
          (g.add_node m.migration_id)) g).reverse x = chainRevR (done ++ rest) x) := by
  intro rest
  induction rest with
  | nil =>
    intro done hne g _ hnodes hfwd hrev
    simp only [chainRecordsFrom, List.foldl_nil, List.append_nil]
    exact ⟨hnodes, hfwd, hrev⟩
  | cons b rest' ih =>
    intro done hne g hnd hnodes hfwd hrev
    have hdnd : done.Nodup := (List.nodup_append.mp hnd).1
    have hb : b ∉ done := by
      intro hmem
      rcases List.nodup_append.mp hnd with ⟨_, _, hdisj⟩
      exact hdisj hmem (List.mem_cons_self b rest')
    have hprevmem : done.getLast hne ∈ done := List.getLast_mem hne
    have hnodes1 : ((g.add_node b).add_edge b (done.getLast hne)).nodes =
        done ++ [b] := by
      show addToSet (addToSet (g.add_node b).nodes b) (done.getLast hne) =
        done ++ [b]
      have hstep1 : (g.add_node b).nodes = done ++ [b] := by
        show addToSet g.nodes b = done ++ [b]
        rw [hnodes]
        unfold addToSet
        rw [if_neg hb]
      rw [hstep1,
        addToSet_eq_self_of_mem (List.mem_append_right _ (List.mem_singleton_self b)),
        addToSet_eq_self_of_mem (List.mem_append_left _ hprevmem)]
    have hfwd1 : ∀ x, ((g.add_node b).add_edge b (done.getLast hne)).forward x =
        chainFwdR (done ++ [b]) x := by
      intro x
      rw [chainFwdR_append b done hne hb x]
      show (if x = b then addToSet ((g.add_node b).forward b) (done.getLast hne)
            else (g.add_node b).forward x) = _
      have hfb : (g.add_node b).forward = g.forward := rfl
      rw [hfb]
      by_cases hxb : x = b
      · rw [if_pos hxb, if_pos hxb, hfwd b, chainFwdR_not_mem hb]
        rfl
      · rw [if_neg hxb, if_neg hxb, hfwd x]
    have hrev1 : ∀ x, ((g.add_node b).add_edge b (done.getLast hne)).reverse x =
        chainRevR (done ++ [b]) x := by
      intro x
      rw [chainRevR_append b done hne hdnd x]
      show (if x = done.getLast hne then
              addToSet ((g.add_node b).reverse (done.getLast hne)) b
            else (g.add_node b).reverse x) = _
      have hrb : (g.add_node b).reverse = g.reverse := rfl
      rw [hrb]
      by_cases hxp : x = done.getLast hne
      · rw [if_pos hxp, if_pos hxp, hrev (done.getLast hne),
          chainRevR_getLast done hne hdnd]
        rfl
      · rw [if_neg hxp, if_neg hxp, hrev x]
    have hne' : done ++ [b] ≠ [] := by simp
    have hgl' : (done ++ [b]).getLast hne' = b := by simp
    have hnd' : ((done ++ [b]) ++ rest').Nodup := by
      have hassoc0 : (done ++ [b]) ++ rest' = done ++ (b :: rest') := by simp
      rw [hassoc0]
      exact hnd
    have hresult := ih (done ++ [b]) hne'
      ((g.add_node b).add_edge b (done.getLast hne)) hnd' hnodes1 hfwd1 hrev1
    rw [hgl'] at hresult
    have hassoc : (done ++ [b]) ++ rest' = done ++ (b :: rest') := by simp
    rw [hassoc] at hresult
    exact hresult

theorem chain_graph_spec (ids : List String) (hnd : ids.Nodup) (hne : ids ≠ []) :
    (mkChain ids).nodes = ids ∧
    (∀ x, (mkChain ids).forward x = chainFwdR ids x) ∧
    (∀ x, (mkChain ids).reverse x = chainRevR ids x) := by
  match ids, hnd, hne with
  | a :: rest, hnd, _ =>
    have h0 : mkChain (a :: rest) =
        (chainRecordsFrom a rest).foldl
          (fun g m => m.dependencies.foldl
            (fun g' dep => g'.add_edge m.migration_id dep)
            (g.add_node m.migration_id))
          (MigrationGraph.empty.add_node a) := rfl
    have hspec := chain_build_spec rest [a] (by simp)
      (MigrationGraph.empty.add_node a) (by simpa using hnd) rfl
      (fun x => by simp [MigrationGraph.empty, MigrationGraph.add_node, chainFwdR])
      (fun x => by simp [MigrationGraph.empty, MigrationGraph.add_node, chainRevR])
    have hgl : ([a] : List String).getLast (by simp) = a := rfl
    rw [hgl] at hspec
    rw [h0]
    simpa using hspec

theorem chainFwdR_get (ids : List String) (hnd : ids.Nodup) :
    ∀ (t : Nat) (h : t + 1 < ids.length),
      chainFwdR ids (ids.get ⟨t + 1, h⟩) = [ids.get ⟨t, Nat.lt_of_succ_lt h⟩] := by
  induction ids with
  | nil => intro t h; simp at h
  | cons a rest ih =>
    intro t h
    cases rest with
    | nil => simp at h
    | cons b rest' =>
      cases t with
      | zero =>
        show chainFwdR (a :: b :: rest') b = [a]
        rw [chainFwdR_cons_cons, if_pos rfl]
      | succ t' =>
        have hlen : t' + 1 < (b :: rest').length := by
          simpa using Nat.lt_of_succ_lt_succ h
        have hx : (a :: b :: rest').get ⟨t' + 1 + 1, h⟩ =
            (b :: rest').get ⟨t' + 1, hlen⟩ := rfl
        have hx' : (a :: b :: rest').get ⟨t' + 1, Nat.lt_of_succ_lt h⟩ =
            (b :: rest').get ⟨t', Nat.lt_of_succ_lt hlen⟩ := rfl
        rw [hx, hx', chainFwdR_cons_cons]
        have hmem : (b :: rest').get ⟨t' + 1, hlen⟩ ∈ rest' := by
          have : (b :: rest').get ⟨t' + 1, hlen⟩ = rest'.get ⟨t', by simpa using hlen⟩ := rfl
          rw [this]
          exact List.get_mem _ _ _
        have hne_b : ¬((b :: rest').get ⟨t' + 1, hlen⟩ = b) := by
          intro heq
          exact (List.nodup_cons.mp hnd.of_cons).1 (heq ▸ hmem)
        rw [if_neg hne_b]
        exact ih hnd.of_cons t' hlen

theorem chainRevR_get (ids : List String) (hnd : ids.Nodup) :
    ∀ (t : Nat) (h : t + 1 < ids.length),
      chainRevR ids (ids.get ⟨t, Nat.lt_of_succ_lt h⟩) = [ids.get ⟨t + 1, h⟩] := by
  induction ids with
  | nil => intro t h; simp at h
  | cons a rest ih =>
    intro t h
    cases rest with
    | nil => simp at h
    | cons b rest' =>
      cases t with
      | zero =>
        show chainRevR (a :: b :: rest') a = [b]
        rw [chainRevR_cons_cons, if_pos rfl]
      | succ t' =>
        have hlen : t' + 1 < (b :: rest').length := by
          simpa using Nat.lt_of_succ_lt_succ h
        have hx : (a :: b :: rest').get ⟨t' + 1, Nat.lt_of_succ_lt h⟩ =
            (b :: rest').get ⟨t', Nat.lt_of_succ_lt hlen⟩ := rfl
        have hx' : (a :: b :: rest').get ⟨t' + 1 + 1, h⟩ =
            (b :: rest').get ⟨t' + 1, hlen⟩ := rfl
        rw [hx, hx', chainRevR_cons_cons]
        have hmem : (b :: rest').get ⟨t', Nat.lt_of_succ_lt hlen⟩ ∈ b :: rest' :=
          List.get_mem _ _ _
        have hne_a : ¬((b :: rest').get ⟨t', Nat.lt_of_succ_lt hlen⟩ = a) := by
          intro heq
          exact (List.nodup_cons.mp hnd).1 (heq ▸ hmem)
        rw [if_neg hne_a]
        exact ih hnd.of_cons t' hlen

theorem chain_find_heads (ids : List String) (hnd : ids.Nodup) (hne : ids ≠ []) :
    (mkChain ids).find_heads = [ids.getLast hne] := by
  obtain ⟨hn, _, hrv⟩ := chain_graph_spec ids hnd hne
  unfold MigrationGraph.find_heads
  rw [hn]
  have hp : (fun n => ((mkChain ids).reverse n).isEmpty) =
      (fun n => (chainRevR ids n).isEmpty) := by
    funext n
    rw [hrv n]
  rw [hp]
  have hsplit : ids.filter (fun n => (chainRevR ids n).isEmpty) =
      (ids.dropLast ++ [ids.getLast hne]).filter
        (fun n => (chainRevR ids n).isEmpty) := by
    rw [List.dropLast_append_getLast hne]
  rw [hsplit, List.filter_append]
  have h1 : ids.dropLast.filter (fun n => (chainRevR ids n).isEmpty) = [] := by
    rw [List.filter_eq_nil_iff]
    intro x hx
    have : chainRevR ids x ≠ [] := (chainRevR_ne_nil_iff ids x).mpr hx
    simpa [List.isEmpty_iff] using this
  have h2 : [ids.getLast hne].filter (fun n => (chainRevR ids n).isEmpty) =
      [ids.getLast hne] := by
    have : chainRevR ids (ids.getLast hne) = [] := chainRevR_getLast ids hne hnd
    simp [List.filter, this]
  rw [h1, h2, List.nil_append, sortStrings_singleton]

theorem chain_filter_fwd_empty (ids : List String) (hnd : ids.Nodup)
    (hne : ids ≠ []) (p : String → Bool)
    (hp : ∀ n, p n = (chainFwdR ids n).isEmpty) :
    ids.filter p = [ids.head hne] := by
  match ids, hnd, hne with
  | a :: rest, hnd, _ =>
    have hpa : p a = true := by
      rw [hp a]
      have : chainFwdR (a :: rest) a = [] := by
        by_contra hcon
        exact (List.nodup_cons.mp hnd).1
          (by simpa using (chainFwdR_ne_nil_iff (a :: rest) a).mp hcon)
      simp [this]
    have hrest : rest.filter p = [] := by
      rw [List.filter_eq_nil_iff]
      intro x hx
      have : chainFwdR (a :: rest) x ≠ [] :=
        (chainFwdR_ne_nil_iff (a :: rest) x).mpr (by simpa using hx)
      rw [hp x]
      simpa [List.isEmpty_iff] using this
    rw [List.filter_cons, if_pos hpa, hrest]
    rfl

theorem chain_find_roots (ids : List String) (hnd : ids.Nodup) (hne : ids ≠ []) :
    (mkChain ids).find_roots = [ids.head hne] := by
  obtain ⟨hn, hfw, _⟩ := chain_graph_spec ids hnd hne
  unfold MigrationGraph.find_roots
  rw [hn]
  rw [chain_filter_fwd_empty ids hnd hne _ (fun n => by rw [hfw n])]
  exact sortStrings_singleton _

theorem kahnLoop_nil (g : MigrationGraph) :
    ∀ (f : Nat) (deg : String → Int) (r : List String),
      kahnLoop g f deg [] r = (r, []) := by
  intro f deg r
  cases f with
  | zero => rfl
  | succ f' => rfl

theorem take_succ_get (l : List String) (t : Nat) (h : t < l.length) :
    l.take (t + 1) = l.take t ++ [l.get ⟨t, h⟩] := by
  rw [List.take_succ]
  congr 1
  rw [List.getElem?_eq_getElem h]
  rfl

theorem chain_loop (ids : List String) (hnd : ids.Nodup) (hne : ids ≠ []) :
    ∀ (f t : Nat), f = ids.length - t → ∀ (ht : t < ids.length),
      ∀ (deg : String → Int),
      (∀ (i : Nat) (hi : i < ids.length),
        deg (ids.get ⟨i, hi⟩) = if i ≤ t then 0 else 1) →
      kahnLoop (mkChain ids) f deg [ids.get ⟨t, ht⟩] (ids.take t) = (ids, []) := by
  intro f
  induction f with
  | zero =>
    intro t hf ht deg _
    omega
  | succ f' ih =>
    intro t hf ht deg hdeg
    obtain ⟨hn, hfw, hrv⟩ := chain_graph_spec ids hnd hne
    simp only [kahnLoop]
    rw [hrv (ids.get ⟨t, ht⟩)]
    by_cases hlt : t + 1 < ids.length
    · have hrvget : chainRevR ids (ids.get ⟨t, ht⟩) = [ids.get ⟨t + 1, hlt⟩] :=
        chainRevR_get ids hnd t hlt
      rw [hrvget, sortStrings_singleton]
      simp only [kahnVisit]
      have hdnext : deg (ids.get ⟨t + 1, hlt⟩) = 1 := by
        rw [hdeg (t + 1) hlt, if_neg (by omega)]
      rw [hdnext]
      have hzero : (1 : Int) - 1 = 0 := by norm_num
      rw [hzero]
      rw [Function.update_same, if_pos rfl]
      rw [← take_succ_get ids t ht]
      have hdeg' : ∀ (i : Nat) (hi : i < ids.length),
          Function.update deg (ids.get ⟨t + 1, hlt⟩) 0 (ids.get ⟨i, hi⟩) =
            if i ≤ t + 1 then 0 else 1 := by
        intro i hi
        by_cases hieq : i = t + 1
        · subst hieq
          rw [Function.update_same, if_pos (by omega)]
        · have hgetne : ids.get ⟨i, hi⟩ ≠ ids.get ⟨t + 1, hlt⟩ := by
            intro heq
            exact hieq (Fin.mk.injEq _ _ _ _ ▸ (hnd.get_inj_iff.mp heq))
          rw [Function.update_noteq hgetne, hdeg i hi]
          by_cases hile : i ≤ t
          · rw [if_pos hile, if_pos (by omega)]
          · rw [if_neg hile, if_neg (by omega)]
      exact ih (t + 1) (by omega) hlt _ hdeg'
    · have ht1 : t = ids.length - 1 := by omega
      have hgetlast : ids.get ⟨t, ht⟩ = ids.getLast hne := by
        rw [List.getLast_eq_get]
        congr 1
        exact Fin.ext (by simpa using ht1)
      have hrevnil : chainRevR ids (ids.get ⟨t, ht⟩) = [] := by
        rw [hgetlast]
        exact chainRevR_getLast ids hne hnd
      rw [hrevnil]
      show kahnLoop (mkChain ids) f'
        (kahnVisit deg [] (sortStrings [])).1 (kahnVisit deg [] (sortStrings [])).2
        (ids.take t ++ [ids.get ⟨t, ht⟩]) = (ids, [])
      rw [← take_succ_get ids t ht]
      have htake : ids.take (t + 1) = ids := by
        apply List.take_of_length_le
        omega
      rw [htake]
      exact kahnLoop_nil (mkChain ids) f' _ _

theorem chain_topological_sort (ids : List String) (hnd : ids.Nodup)
    (hne : ids ≠ []) :
    (mkChain ids).topological_sort = Except.ok ids := by
  obtain ⟨hn, hfw, _⟩ := chain_graph_spec ids hnd hne
  have hlen0 : 0 < ids.length := List.length_pos.mpr hne
  have hq : sortStrings ((mkChain ids).nodes.filter
      (fun n => ((mkChain ids).forward n).length == 0)) = [ids.get ⟨0, hlen0⟩] := by
    rw [hn]
    have hfil : ids.filter (fun n => ((mkChain ids).forward n).length == 0) =
        [ids.head hne] := by
      apply chain_filter_fwd_empty ids hnd hne
      intro n
      rw [hfw n]
      cases chainFwdR ids n <;> rfl
    rw [hfil]
    have : ids.head hne = ids.get ⟨0, hlen0⟩ := by
      cases ids with
      | nil => exact absurd rfl hne
      | cons a rest => rfl
    rw [this]
    exact sortStrings_singleton _
  have hdeg0 : ∀ (i : Nat) (hi : i < ids.length),
      (fun n => (((mkChain ids).forward n).length : Int)) (ids.get ⟨i, hi⟩) =
        if i ≤ 0 then 0 else 1 := by
    intro i hi
    cases i with
    | zero =>
      have hnil : (mkChain ids).forward (ids.get ⟨0, hi⟩) = [] := by
        rw [hfw]
        by_contra hcon
        have hmem := (chainFwdR_ne_nil_iff ids _).mp hcon
        cases ids with
        | nil => exact absurd rfl hne
        | cons a rest =>
          exact (List.nodup_cons.mp hnd).1 (by simpa using hmem)
      show (((mkChain ids).forward (ids.get ⟨0, hi⟩)).length : Int) =
        if 0 ≤ 0 then 0 else 1
      rw [hnil]
      simp
    | succ i' =>
      have hone : (mkChain ids).forward (ids.get ⟨i' + 1, hi⟩) =
          [ids.get ⟨i', Nat.lt_of_succ_lt hi⟩] := by
        rw [hfw]
        exact chainFwdR_get ids hnd i' hi
      show (((mkChain ids).forward (ids.get ⟨i' + 1, hi⟩)).length : Int) =
        if i' + 1 ≤ 0 then 0 else 1
      rw [hone]
      simp
  have hloop := chain_loop ids hnd hne ids.length 0 (by omega) hlen0
    (fun n => (((mkChain ids).forward n).length : Int)) hdeg0
  simp only [List.take_zero] at hloop
  have hdef : (mkChain ids).topological_sort =
      (if ((kahnLoop (mkChain ids) (mkChain ids).nodes.length
            (fun n => (((mkChain ids).forward n).length : Int))
            (sortStrings ((mkChain ids).nodes.filter
              (fun n => ((mkChain ids).forward n).length == 0))) []).1.length
          = (mkChain ids).nodes.length)
       then Except.ok (kahnLoop (mkChain ids) (mkChain ids).nodes.length
            (fun n => (((mkChain ids).forward n).length : Int))
            (sortStrings ((mkChain ids).nodes.filter
              (fun n => ((mkChain ids).forward n).length == 0))) []).1
       else Except.error
         "Migration graph contains cycles – topological sort is impossible.") := rfl
  rw [hdef, hq, hn, hloop]
  simp

/-- C7: on a linear chain of N distinct ids (each node after the first
depending exactly on its predecessor), `find_heads` and `find_roots` each
return exactly one node, and `topological_sort` succeeds returning all N
nodes in chain order, with each node's dependencies preceding it. -/
theorem C7_linear_chain (ids : List String) (hnd : ids.Nodup) (hne : ids ≠ []) :
    (mkChain ids).find_heads = [ids.getLast hne] ∧
    (mkChain ids).find_roots = [ids.head hne] ∧
    (mkChain ids).topological_sort = Except.ok ids ∧
    (∀ (i : Fin ids.length) (d : String),
      d ∈ (mkChain ids).forward (ids.get i) →
      ∃ j : Fin ids.length, (j : Nat) < (i : Nat) ∧ ids.get j = d) := by
  refine ⟨chain_find_heads ids hnd hne, chain_find_roots ids hnd hne,
    chain_topological_sort ids hnd hne, ?_⟩
  obtain ⟨_, hfw, _⟩ := chain_graph_spec ids hnd hne
  rintro ⟨i, hi⟩ d hd
  rw [hfw] at hd
  cases i with
  | zero =>
    exfalso
    have hcon : chainFwdR ids (ids.get ⟨0, hi⟩) ≠ [] := by
      intro hnil
      rw [hnil] at hd
      simp at hd
    have hmem := (chainFwdR_ne_nil_iff ids _).mp hcon
    cases ids with
    | nil => exact absurd rfl hne
    | cons a rest => exact (List.nodup_cons.mp hnd).1 (by simpa using hmem)
  | succ i' =>
    rw [chainFwdR_get ids hnd i' hi] at hd
    simp only [List.mem_singleton] at hd
    exact ⟨⟨i', Nat.lt_of_succ_lt hi⟩, by simp, hd.symm⟩

/-- Witness for C7 at the concrete three-node chain a ← b ← c. -/
theorem C7_linear_chain_witness :
    (["a", "b", "c"] : List String).Nodup ∧
    (mkChain ["a", "b", "c"]).find_heads = ["c"] ∧
    (mkChain ["a", "b", "c"]).find_roots = ["a"] ∧
    (mkChain ["a", "b", "c"]).topological_sort = Except.ok ["a", "b", "c"] := by
  have h := C7_linear_chain ["a", "b", "c"] (by decide) (by decide)
  exact ⟨by decide, h.1, h.2.1, h.2.2.1⟩

theorem detect_multiple_heads_eq (g : MigrationGraph) :
    g.detect_multiple_heads =
      if 1 < g.find_heads.length then g.find_heads else [] := rfl

theorem analyze_def (g : MigrationGraph) :
    g.analyze =
      (if g.detect_multiple_heads.isEmpty then []
       else [analyzeHeadIssueOf g.detect_multiple_heads]) ++
      g.detect_cycles.map cycleIssueOf ++
      g.missing_dependencies.map missingIssueOf ++
      (if g.find_orphans.isEmpty then []
       else [orphanIssueOf g.find_orphans]) := rfl

/-- C6: `analyze` is a total function — it never fails, even on cyclic
graphs — and returns its issues in the fixed order: one critical
multiple-heads issue iff more than one head exists, then one critical issue
per cycle returned by `detect_cycles`, then one critical issue per
missing-dependency pair, then a single orphan warning iff orphans exist. -/
theorem C6_analyze_order (g : MigrationGraph) :
    g.analyze =
      (if 1 < g.find_heads.length then [analyzeHeadIssueOf g.find_heads] else []) ++
      g.detect_cycles.map cycleIssueOf ++
      g.missing_dependencies.map missingIssueOf ++
      (if g.find_orphans ≠ [] then [orphanIssueOf g.find_orphans] else []) ∧
    ((∃ i ∈ g.analyze, i.issue_type = "multiple_heads") ↔
      1 < g.find_heads.length) ∧
    (g.analyze.filter (fun i => i.issue_type == "cycle")).length =
      g.detect_cycles.length ∧
    (g.analyze.filter (fun i => i.issue_type == "missing_dependency")).length =
      g.missing_dependencies.length ∧
    ((∃ i ∈ g.analyze, i.issue_type = "orphan") ↔ g.find_orphans ≠ []) := by
  have horph : (if g.find_orphans.isEmpty then ([] : List GraphIssue)
       else [orphanIssueOf g.find_orphans]) =
      (if g.find_orphans ≠ [] then [orphanIssueOf g.find_orphans] else []) := by
    cases hfo : g.find_orphans with
    | nil => simp
    | cons a rest => simp
  have hdec : g.analyze =
      (if 1 < g.find_heads.length then [analyzeHeadIssueOf g.find_heads] else []) ++
      g.detect_cycles.map cycleIssueOf ++
      g.missing_dependencies.map missingIssueOf ++
      (if g.find_orphans ≠ [] then [orphanIssueOf g.find_orphans] else []) := by
    rw [analyze_def, detect_multiple_heads_eq, horph]
    by_cases hh : 1 < g.find_heads.length
    · rw [if_pos hh, if_pos hh]
      have hne : g.find_heads.isEmpty = false := by
        cases hfh : g.find_heads with
        | nil => rw [hfh] at hh; simp at hh
        | cons a rest => rfl
      rw [hne]
      simp
    · rw [if_neg hh, if_neg hh]
      simp
  refine ⟨hdec, ?_, ?_, ?_, ?_⟩
  · rw [hdec]
    constructor
    · rintro ⟨i, hmem, htype⟩
      simp only [List.mem_append, List.mem_map] at hmem
      rcases hmem with ((hmem | hmem) | hmem) | hmem
      · by_cases hh : 1 < g.find_heads.length
        · exact hh
        · rw [if_neg hh] at hmem
          simp at hmem
      · obtain ⟨c, _, rfl⟩ := hmem
        exact absurd htype (by simp [cycleIssueOf])
      · obtain ⟨p, _, rfl⟩ := hmem
        exact absurd htype (by simp [missingIssueOf])
      · by_cases ho : g.find_orphans ≠ []
        · rw [if_pos ho] at hmem
          simp only [List.mem_singleton] at hmem
          subst hmem
          exact absurd htype (by simp [orphanIssueOf])
        · rw [if_neg ho] at hmem
          simp at hmem
    · intro hh
      refine ⟨analyzeHeadIssueOf g.find_heads, ?_, rfl⟩
      simp [if_pos hh]
  · rw [hdec]
    simp only [List.filter_append, List.length_append]
    have h1 : ((if 1 < g.find_heads.length then [analyzeHeadIssueOf g.find_heads]
        else []).filter (fun i => i.issue_type == "cycle")).length = 0 := by
      by_cases hh : 1 < g.find_heads.length <;> simp [hh, analyzeHeadIssueOf]
    have h2 : ((g.detect_cycles.map cycleIssueOf).filter
        (fun i => i.issue_type == "cycle")).length = g.detect_cycles.length := by
      rw [List.filter_map]
      simp [Function.comp, cycleIssueOf]
    have h3 : ((g.missing_dependencies.map missingIssueOf).filter
        (fun i => i.issue_type == "cycle")).length = 0 := by
      rw [List.filter_map]
      simp [Function.comp, missingIssueOf]
    have h4 : ((if g.find_orphans ≠ [] then [orphanIssueOf g.find_orphans]
        else []).filter (fun i => i.issue_type == "cycle")).length = 0 := by
      by_cases ho : g.find_orphans ≠ [] <;> simp [ho, orphanIssueOf]
    rw [h1, h2, h3, h4]
    omega
  · rw [hdec]
    simp only [List.filter_append, List.length_append]
    have h1 : ((if 1 < g.find_heads.length then [analyzeHeadIssueOf g.find_heads]
        else []).filter (fun i => i.issue_type == "missing_dependency")).length = 0 := by
      by_cases hh : 1 < g.find_heads.length <;> simp [hh, analyzeHeadIssueOf]
    have h2 : ((g.detect_cycles.map cycleIssueOf).filter
        (fun i => i.issue_type == "missing_dependency")).length = 0 := by
      rw [List.filter_map]
      simp [Function.comp, cycleIssueOf]
    have h3 : ((g.missing_dependencies.map missingIssueOf).filter
        (fun i => i.issue_type == "missing_dependency")).length =
        g.missing_dependencies.length := by
      rw [List.filter_map]
      simp [Function.comp, missingIssueOf]
    have h4 : ((if g.find_orphans ≠ [] then [orphanIssueOf g.find_orphans]
        else []).filter (fun i => i.issue_type == "missing_dependency")).length = 0 := by
      by_cases ho : g.find_orphans ≠ [] <;> simp [ho, orphanIssueOf]
    rw [h1, h2, h3, h4]
    omega
  · rw [hdec]
    constructor
    · rintro ⟨i, hmem, htype⟩
      simp only [List.mem_append, List.mem_map] at hmem
      rcases hmem with ((hmem | hmem) | hmem) | hmem
      · by_cases hh : 1 < g.find_heads.length
        · rw [if_pos hh] at hmem
          simp only [List.mem_singleton] at hmem
          subst hmem
          exact absurd htype (by simp [analyzeHeadIssueOf])
        · rw [if_neg hh] at hmem
          simp at hmem
      · obtain ⟨c, _, rfl⟩ := hmem
        exact absurd htype (by simp [cycleIssueOf])
      · obtain ⟨p, _, rfl⟩ := hmem
        exact absurd htype (by simp [missingIssueOf])
      · by_cases ho : g.find_orphans ≠ []
        · exact ho
        · rw [if_neg ho] at hmem
          simp at hmem
    · intro ho
      refine ⟨orphanIssueOf g.find_orphans, ?_, rfl⟩
      simp [if_pos ho]

theorem length_filter_ne {m : List String} (h : m.Nodup) {node : String}
    (hm : node ∈ m) :
    (m.filter (fun d => !(decide (d = node)))).length + 1 = m.length := by
  induction m with
  | nil => simp at hm
  | cons a t ih =>
    by_cases ha : a = node
    · subst ha
      have hnt : a ∉ t := (List.nodup_cons.mp h).1
      have hfil : t.filter (fun d => !(decide (d = a))) = t := by
        apply List.filter_eq_self.mpr
        intro d hd
        simp only [Bool.not_eq_eq_eq_not, Bool.not_true, decide_eq_false_iff_not]
        intro hne
        exact hnt (hne ▸ hd)
      simp [List.filter_cons, hfil]
    · have hmt : node ∈ t := by
        rcases List.mem_cons.mp hm with h1 | h1
        · exact absurd h1.symm ha
        · exact h1
      have ih' := ih (List.nodup_cons.mp h).2 hmt
      have hkeep : (a :: t).filter (fun d => !(decide (d = node))) =
          a :: t.filter (fun d => !(decide (d = node))) := by
        simp [List.filter_cons, ha]
      rw [hkeep]
      simp only [List.length_cons]
      omega

theorem kahnVisit_spec :
    ∀ (deps : List String), deps.Nodup →
    ∀ (deg : String → Int) (queue : List String),
      (kahnVisit deg queue deps).1 =
        (fun x => if x ∈ deps then deg x - 1 else deg x) ∧
      (kahnVisit deg queue deps).2 =
        queue ++ deps.filter (fun d => decide (deg d - 1 = 0)) := by
  intro deps
  induction deps with
  | nil =>
    intro _ deg queue
    constructor
    · funext x
      simp [kahnVisit]
    · simp [kahnVisit]
  | cons dep rest ih =>
    intro hnd deg queue
    have hnr : dep ∉ rest := (List.nodup_cons.mp hnd).1
    have hrest := (List.nodup_cons.mp hnd).2
    simp only [kahnVisit]
    have hupd : Function.update deg dep (deg dep - 1) dep = deg dep - 1 :=
      Function.update_same _ _ _
    obtain ⟨ihd, ihq⟩ := ih hrest (Function.update deg dep (deg dep - 1))
      (if Function.update deg dep (deg dep - 1) dep = 0 then queue ++ [dep] else queue)
    constructor
    · rw [ihd]
      funext x
      by_cases hx : x = dep
      · subst hx
        rw [if_neg hnr, if_pos (List.mem_cons_self x rest), hupd]
      · have hne : Function.update deg dep (deg dep - 1) x = deg x :=
          Function.update_noteq hx _ _
        by_cases hmem : x ∈ rest
        · rw [if_pos hmem, if_pos (List.mem_cons_of_mem dep hmem), hne]
        · rw [if_neg hmem, if_neg (by simp [hx, hmem]), hne]
    · rw [ihq]
      have hfil : rest.filter
          (fun d => decide (Function.update deg dep (deg dep - 1) d - 1 = 0)) =
          rest.filter (fun d => decide (deg d - 1 = 0)) := by
        apply List.filter_congr
        intro d hd
        have hdd : ¬(d = dep) := fun h => hnr (h ▸ hd)
        have : Function.update deg dep (deg dep - 1) d = deg d :=
          Function.update_noteq hdd _ _
        rw [this]
      rw [hfil, hupd]
      by_cases hz : deg dep - 1 = 0
      · rw [if_pos hz, List.filter_cons, if_pos (by simp [hz])]
        simp
      · rw [if_neg hz, List.filter_cons, if_neg (by simp [hz])]

theorem kahnInv_step (g : MigrationGraph) (hwf : WF g) (deg : String → Int)
    (node : String) (rest result : List String)
    (inv : KahnInv g deg (node :: rest) result) :
    KahnInv g (kahnVisit deg rest (sortStrings (g.reverse node))).1
      (kahnVisit deg rest (sortStrings (g.reverse node))).2 (result ++ [node]) := by
  obtain ⟨qSub, rSub, nd, degEq, qZero, ranked⟩ := inv
  have hdepsnd : (sortStrings (g.reverse node)).Nodup :=
    nodup_sortStrings (hwf.revNodup node)
  obtain ⟨hdegspec, hqspec⟩ := kahnVisit_spec (sortStrings (g.reverse node))
    hdepsnd deg rest
  have hnode_nodes : node ∈ g.nodes := qSub node (List.mem_cons_self _ _)
  have hndparts := List.nodup_append.mp nd
  have hnode_not_res : node ∉ result := fun hmem =>
    hndparts.2.2 hmem (List.mem_cons_self _ _)
  have hdeps_iff : ∀ x, x ∈ sortStrings (g.reverse node) ↔ node ∈ g.forward x := by
    intro x
    rw [mem_sortStrings]
    exact (hwf.fwdRev x node).symm
  have hresult_closed : ∀ x ∈ result, ∀ d ∈ g.forward x, d ∈ result := by
    intro x hx d hd
    obtain ⟨⟨i, hi⟩, hget⟩ := List.mem_iff_get.mp hx
    obtain ⟨j, _, hj, hgetj⟩ := ranked i hi d (by rw [hget]; exact hd)
    exact hgetj ▸ List.get_mem _ _ _
  have hres_deg0 : ∀ x ∈ result,
      (g.forward x).filter (fun d => !(decide (d ∈ result))) = [] := by
    intro x hx
    rw [List.filter_eq_nil_iff]
    intro d hd
    simp [hresult_closed x hx d hd]
  have hrest_deg0 : ∀ x ∈ rest,
      (g.forward x).filter (fun d => !(decide (d ∈ result))) = [] := by
    intro x hx
    rw [List.filter_eq_nil_iff]
    intro d hd
    simp [qZero x (List.mem_cons_of_mem node hx) d hd]
  have happsub : ∀ x ∈ (sortStrings (g.reverse node)).filter
      (fun d => decide (deg d - 1 = 0)), x ∈ sortStrings (g.reverse node) :=
    fun x hx => List.mem_of_mem_filter hx
  have happ_nodes : ∀ x ∈ (sortStrings (g.reverse node)).filter
      (fun d => decide (deg d - 1 = 0)), x ∈ g.nodes := by
    intro x hx
    exact hwf.revTgt node x (mem_sortStrings.mp (happsub x hx))
  have happ_deg1 : ∀ x ∈ (sortStrings (g.reverse node)).filter
      (fun d => decide (deg d - 1 = 0)), deg x = 1 := by
    intro x hx
    have := List.of_mem_filter hx
    simp only [decide_eq_true_eq] at this
    omega
  have happ_not_res : ∀ x ∈ (sortStrings (g.reverse node)).filter
      (fun d => decide (deg d - 1 = 0)), x ∉ result := by
    intro x hx hmem
    have h0 := degEq x (happ_nodes x hx)
    rw [hres_deg0 x hmem] at h0
    have h1 := happ_deg1 x hx
    rw [h0] at h1
    simp at h1
  have happ_not_rest : ∀ x ∈ (sortStrings (g.reverse node)).filter
      (fun d => decide (deg d - 1 = 0)), x ∉ rest := by
    intro x hx hmem
    have h0 := degEq x (happ_nodes x hx)
    rw [hrest_deg0 x hmem] at h0
    have h1 := happ_deg1 x hx
    rw [h0] at h1
    simp at h1
  have happ_ne_node : ∀ x ∈ (sortStrings (g.reverse node)).filter
      (fun d => decide (deg d - 1 = 0)), x ≠ node := by
    intro x hx heq
    rw [heq] at hx
    have hself : node ∈ g.forward node := (hdeps_iff node).mp (happsub node hx)
    exact hnode_not_res (qZero node (List.mem_cons_self _ _) node hself)
  have happnd : ((sortStrings (g.reverse node)).filter
      (fun d => decide (deg d - 1 = 0))).Nodup := hdepsnd.filter _
  rw [hdegspec, hqspec]
  constructor
  · -- qSub
    intro x hx
    rcases List.mem_append.mp hx with hx | hx
    · exact qSub x (List.mem_cons_of_mem node hx)
    · exact happ_nodes x hx
  · -- rSub
    intro x hx
    rcases List.mem_append.mp hx with hx | hx
    · exact rSub x hx
    · simp only [List.mem_singleton] at hx
      exact hx ▸ hnode_nodes
  · -- nd
    have hshape : (result ++ [node]) ++
        (rest ++ (sortStrings (g.reverse node)).filter
          (fun d => decide (deg d - 1 = 0))) =
        (result ++ node :: rest) ++ (sortStrings (g.reverse node)).filter
          (fun d => decide (deg d - 1 = 0)) := by
      simp
    rw [hshape]
    refine List.nodup_append.mpr ⟨nd, happnd, ?_⟩
    intro a ha hb
    rcases List.mem_append.mp ha with ha | ha
    · exact happ_not_res a hb ha
    · rcases List.mem_cons.mp ha with ha | ha
      · exact happ_ne_node a hb ha
      · exact happ_not_rest a hb ha
  · -- degEq
    intro x hx
    have hsplit : (g.forward x).filter
        (fun d => !(decide (d ∈ result ++ [node]))) =
        ((g.forward x).filter (fun d => !(decide (d ∈ result)))).filter
          (fun d => !(decide (d = node))) := by
      rw [List.filter_filter]
      apply List.filter_congr
      intro d _
      by_cases h1 : d ∈ result <;> by_cases h2 : d = node <;> simp [h1, h2]
    by_cases hmem : x ∈ sortStrings (g.reverse node)
    · rw [if_pos hmem, hsplit]
      have hfwd : node ∈ g.forward x := (hdeps_iff x).mp hmem
      have hmfil : node ∈ (g.forward x).filter (fun d => !(decide (d ∈ result))) := by
        rw [List.mem_filter]
        exact ⟨hfwd, by simp [hnode_not_res]⟩
      have hw := length_filter_ne ((hwf.fwdNodup x).filter _) hmfil
      have hold := degEq x hx
      rw [hold]
      omega
    · rw [if_neg hmem, hsplit]
      have hfwd : node ∉ g.forward x := fun hf => hmem ((hdeps_iff x).mpr hf)
      have hkeep : ((g.forward x).filter (fun d => !(decide (d ∈ result)))).filter
          (fun d => !(decide (d = node))) =
          (g.forward x).filter (fun d => !(decide (d ∈ result))) := by
        apply List.filter_eq_self.mpr
        intro d hd
        have : d ≠ node := fun h => hfwd (h ▸ List.mem_of_mem_filter hd)
        simp [this]
      rw [hkeep]
      exact degEq x hx
  · -- qZero
    intro x hx d hd
    rcases List.mem_append.mp hx with hx | hx
    · exact List.mem_append_left _ (qZero x (List.mem_cons_of_mem node hx) d hd)
    · by_cases hdres : d ∈ result
      · exact List.mem_append_left _ hdres
      · have hlen : ((g.forward x).filter
            (fun e => !(decide (e ∈ result)))).length = 1 := by
          have h0 := degEq x (happ_nodes x hx)
          have h1 := happ_deg1 x hx
          rw [h0] at h1
          exact_mod_cast h1
        obtain ⟨y, hy⟩ := List.length_eq_one.mp hlen
        have hfwd : node ∈ g.forward x := (hdeps_iff x).mp (happsub x hx)
        have hn_mem : node ∈ (g.forward x).filter
            (fun e => !(decide (e ∈ result))) := by
          rw [List.mem_filter]
          exact ⟨hfwd, by simp [hnode_not_res]⟩
        have hd_mem : d ∈ (g.forward x).filter
            (fun e => !(decide (e ∈ result))) := by
          rw [List.mem_filter]
          exact ⟨hd, by simp [hdres]⟩
        rw [hy] at hn_mem hd_mem
        simp only [List.mem_singleton] at hn_mem hd_mem
        rw [hd_mem, ← hn_mem]
        exact List.mem_append_right _ (List.mem_singleton_self _)
  · -- ranked
    intro i hi d hd
    by_cases hilt : i < result.length
    · rw [List.get_append i hilt] at hd
      obtain ⟨j, hji, hjlen, hgetj⟩ := ranked i hilt d hd
      refine ⟨j, hji, by simp; omega, ?_⟩
      rw [List.get_append j hjlen]
      exact hgetj
    · have hieq : i = result.length := by
        simp only [List.length_append, List.length_singleton] at hi
        omega
      have hgetn : (result ++ [node]).get ⟨i, hi⟩ = node := by
        subst hieq
        simp
      rw [hgetn] at hd
      have hdres : d ∈ result := qZero node (List.mem_cons_self _ _) d hd
      obtain ⟨⟨j, hjlen⟩, hget⟩ := List.mem_iff_get.mp hdres
      refine ⟨j, by omega, by simp; omega, ?_⟩
      rw [List.get_append j hjlen]
      exact hget

theorem kahnLoop_inv (g : MigrationGraph) (hwf : WF g) :
    ∀ (fuel : Nat) (deg : String → Int) (queue result : List String),
      KahnInv g deg queue result →
      ∃ deg', KahnInv g deg' (kahnLoop g fuel deg queue result).2
        (kahnLoop g fuel deg queue result).1 := by
  intro fuel
  induction fuel with
  | zero =>
    intro deg queue result inv
    exact ⟨deg, inv⟩
  | succ f ih =>
    intro deg queue result inv
    match queue with
    | [] => exact ⟨deg, inv⟩
    | node :: rest =>
      simp only [kahnLoop]
      exact ih _ _ _ (kahnInv_step g hwf deg node rest result inv)

theorem kahnInv_init (g : MigrationGraph) (hwf : WF g) :
    KahnInv g (fun n => ((g.forward n).length : Int))
      (sortStrings (g.nodes.filter (fun n => (g.forward n).length == 0))) [] := by
  constructor
  · intro x hx
    exact List.mem_of_mem_filter (mem_sortStrings.mp hx)
  · intro x hx
    simp at hx
  · simp only [List.nil_append]
    exact nodup_sortStrings (hwf.nodesNodup.filter _)
  · intro x _
    have : (g.forward x).filter (fun d => !(decide (d ∈ ([] : List String)))) =
        g.forward x := by
      apply List.filter_eq_self.mpr
      intro d _
      simp
    rw [this]
  · intro x hx d hd
    have hfil := List.of_mem_filter (mem_sortStrings.mp hx)
    simp only [beq_iff_eq] at hfil
    rw [List.length_eq_zero] at hfil
    rw [hfil] at hd
    simp at hd
  · intro i hi
    simp at hi

theorem mem_of_getLast_some {α : Type} (l : List α) (a : α)
    (h : l.getLast? = some a) : a ∈ l := by
  cases l with
  | nil => simp at h
  | cons b t =>
    have h2 : (b :: t).getLast? = some ((b :: t).getLast (by simp)) :=
      List.getLast?_eq_getLast _ _
    rw [h2] at h
    have h3 : (b :: t).getLast (by simp) = a := by injection h
    exact h3 ▸ List.getLast_mem _

theorem ranked_step_lt (g : MigrationGraph) (l : List String) (hnd : l.Nodup)
    (hrank : ∀ (i : Nat) (hi : i < l.length), ∀ d ∈ g.forward (l.get ⟨i, hi⟩),
      ∃ j, j < i ∧ ∃ hj : j < l.length, l.get ⟨j, hj⟩ = d)
    (u d : String) (hu : u ∈ l) (hE : d ∈ g.forward u) :
    d ∈ l ∧ l.indexOf d < l.indexOf u := by
  have hi : l.indexOf u < l.length := List.indexOf_lt_length.mpr hu
  have hget : l.get ⟨l.indexOf u, hi⟩ = u := List.indexOf_get hi
  obtain ⟨j, hji, hj, hgetj⟩ := hrank (l.indexOf u) hi d (by rw [hget]; exact hE)
  have hd : d ∈ l := hgetj ▸ List.get_mem l j hj
  have hidx : l.indexOf d = j := by
    rw [← hgetj]
    exact List.get_indexOf hnd ⟨j, hj⟩
  exact ⟨hd, by omega⟩

theorem ranked_no_cycle (g : MigrationGraph) (l : List String) (hnd : l.Nodup)
    (hrank : ∀ (i : Nat) (hi : i < l.length), ∀ d ∈ g.forward (l.get ⟨i, hi⟩),
      ∃ j, j < i ∧ ∃ hj : j < l.length, l.get ⟨j, hj⟩ = d)
    (a : String) (p : List String)
    (hchain : List.Chain (fun u v => v ∈ g.forward u) a p)
    (hlast : p.getLast? = some a) (ha : a ∈ l) : False := by
  have key : ∀ (p : List String) (a : String), a ∈ l →
      List.Chain (fun u v => v ∈ g.forward u) a p →
      ∀ b, p.getLast? = some b → b ∈ l ∧ l.indexOf b < l.indexOf a := by
    intro p
    induction p with
    | nil =>
      intro a _ _ b hb
      simp at hb
    | cons c rest ih =>
      intro a ha2 hch b hb
      obtain ⟨hE, hrest⟩ := List.chain_cons.mp hch
      have hc := ranked_step_lt g l hnd hrank a c ha2 hE
      cases rest with
      | nil =>
        have hbc : c = b := by simpa using hb
        exact hbc ▸ hc
      | cons e rest2 =>
        have hb2 : (e :: rest2).getLast? = some b := by simpa using hb
        have hres := ih c hc.1 hrest b hb2
        exact ⟨hres.1, lt_trans hres.2 hc.2⟩
  have := (key p a ha hchain a hlast).2
  omega

theorem chain_mem_nodes (g : MigrationGraph) (hwf : WF g) :
    ∀ (p : List String) (a : String),
      List.Chain (fun u v => v ∈ g.forward u) a p → ∀ x ∈ p, x ∈ g.nodes := by
  intro p
  induction p with
  | nil =>
    intro a _ x hx
    simp at hx
  | cons c rest ih =>
    intro a hch x hx
    obtain ⟨hE, hrest⟩ := List.chain_cons.mp hch
    rcases List.mem_cons.mp hx with h | h
    · exact h ▸ hwf.fwdTgt a c hE
    · exact ih c hrest x h

theorem all_mem_of_length_eq (l m : List String) (hnd : l.Nodup)
    (hsub : ∀ x ∈ l, x ∈ m) (hmnd : m.Nodup) (hlen : l.length = m.length) :
    ∀ x ∈ m, x ∈ l := by
  have h1 : l.toFinset ⊆ m.toFinset := fun x hx =>
    List.mem_toFinset.mpr (hsub x (List.mem_toFinset.mp hx))
  have h2 : m.toFinset.card ≤ l.toFinset.card := by
    rw [List.toFinset_card_of_nodup hnd, List.toFinset_card_of_nodup hmnd, hlen]
  have heq := Finset.eq_of_subset_of_card_le h1 h2
  intro x hx
  have hx2 : x ∈ m.toFinset := List.mem_toFinset.mpr hx
  rw [← heq] at hx2
  exact List.mem_toFinset.mp hx2

theorem topo_error_of_cycle (g : MigrationGraph) (hwf : WF g)
    (hcyc : HasCycle g) :
    g.topological_sort = Except.error
      "Migration graph contains cycles – topological sort is impossible." := by
  obtain ⟨a, p, hp, hchain, hlast⟩ := hcyc
  obtain ⟨deg', inv⟩ := kahnLoop_inv g hwf g.nodes.length
    (fun n => ((g.forward n).length : Int))
    (sortStrings (g.nodes.filter (fun n => (g.forward n).length == 0))) []
    (kahnInv_init g hwf)
  have hne : ((kahnLoop g g.nodes.length (fun n => ((g.forward n).length : Int))
      (sortStrings (g.nodes.filter (fun n => (g.forward n).length == 0)))
      []).1).length ≠ g.nodes.length := by
    intro hlen
    set out := (kahnLoop g g.nodes.length (fun n => ((g.forward n).length : Int))
      (sortStrings (g.nodes.filter (fun n => (g.forward n).length == 0)))
      []).1 with hO
    have hnd : out.Nodup := (List.nodup_append.mp inv.nd).1
    have hcomplete := all_mem_of_length_eq out g.nodes hnd inv.rSub
      hwf.nodesNodup hlen
    have ha_out : a ∈ out :=
      hcomplete a (chain_mem_nodes g hwf p a hchain a (mem_of_getLast_some p a hlast))
    exact ranked_no_cycle g out hnd inv.ranked a p hchain hlast ha_out
  have hdef : g.topological_sort =
      (if ((kahnLoop g g.nodes.length (fun n => ((g.forward n).length : Int))
          (sortStrings (g.nodes.filter (fun n => (g.forward n).length == 0)))
          []).1).length = g.nodes.length
       then Except.ok ((kahnLoop g g.nodes.length
          (fun n => ((g.forward n).length : Int))
          (sortStrings (g.nodes.filter (fun n => (g.forward n).length == 0)))
          []).1)
       else Except.error
         "Migration graph contains cycles – topological sort is impossible.") := rfl
  rw [hdef, if_neg hne]

theorem processDeps_eq (g : MigrationGraph) (node : String) (s : DfsState) :
    processDeps g node s = (sortStrings (g.forward node)).foldl (depStep g node) s := rfl

theorem detect_cycles_eq (g : MigrationGraph) :
    g.detect_cycles = ((sortStrings g.nodes).foldl
      (dfsOuterStep g (3 * g.nodes.length + 2 * g.edgeSum + 3))
      { color := fun _ => Color.white, parent := fun _ => none, stack := [], cycles := [] }).cycles := rfl

theorem buildCycle_ne_nil (parent : String → Option String) (dep node : String)
    (fuel : Nat) : buildCycle parent dep node fuel ≠ [] := by
  simp [buildCycle]

theorem depStep_fold (g : MigrationGraph) (node : String) :
    ∀ (L : List String) (t : DfsState),
    ∃ pushed extra,
      (L.foldl (depStep g node) t).stack = pushed ++ t.stack ∧
      (L.foldl (depStep g node) t).color = t.color ∧
      (L.foldl (depStep g node) t).cycles = t.cycles ++ extra ∧
      (∀ c ∈ extra, c ≠ []) ∧
      (∀ e ∈ pushed, e.2 = false ∧ e.1 ∈ L ∧ t.color e.1 = Color.white) ∧
      pushed.length ≤ L.length ∧
      (∀ d ∈ L, (t.color d = Color.white → (d, false) ∈ pushed) ∧
        (t.color d = Color.gray → (L.foldl (depStep g node) t).cycles ≠ [])) := by
  intro L
  induction L with
  | nil =>
    intro t
    refine ⟨[], [], by simp, rfl, by simp, by simp, by simp, by simp, by simp⟩
  | cons d rest ih =>
    intro t
    have hfold : (d :: rest).foldl (depStep g node) t =
        rest.foldl (depStep g node) (depStep g node t d) := rfl
    obtain ⟨pushed, extra, hstk, hclr, hcyc, hne, hpush, hlen, hprog⟩ :=
      ih (depStep g node t d)
    match hcol : t.color d with
    | Color.gray =>
      have hs : (depStep g node t d).stack = t.stack := by simp [depStep, hcol]
      have hc2 : (depStep g node t d).color = t.color := by simp [depStep, hcol]
      have hcy : (depStep g node t d).cycles = t.cycles ++
          [buildCycle t.parent d node (g.nodes.length + 1)] := by
        simp [depStep, hcol]
      rw [hc2] at hpush hprog
      refine ⟨pushed, buildCycle t.parent d node (g.nodes.length + 1) :: extra,
        ?_, ?_, ?_, ?_, ?_, ?_, ?_⟩
      · rw [hfold, hstk, hs]
      · rw [hfold, hclr, hc2]
      · rw [hfold, hcyc, hcy]
        simp
      · intro c hc
        rcases List.mem_cons.mp hc with hc | hc
        · exact hc ▸ buildCycle_ne_nil _ _ _ _
        · exact hne c hc
      · intro e he
        obtain ⟨h1, h2, h3⟩ := hpush e he
        exact ⟨h1, List.mem_cons_of_mem d h2, h3⟩
      · exact le_trans hlen (Nat.le_succ rest.length)
      · intro x hx
        constructor
        · intro hw
          rcases List.mem_cons.mp hx with hx | hx
          · rw [hx] at hw
            rw [hw] at hcol
            cases hcol
          · exact (hprog x hx).1 hw
        · intro _
          rw [hfold, hcyc, hcy]
          intro hnil
          rw [List.append_eq_nil] at hnil
          have h5 := hnil.1
          rw [List.append_eq_nil] at h5
          cases h5.2
    | Color.white =>
      have hs : (depStep g node t d).stack = (d, false) :: t.stack := by
        simp [depStep, hcol]
      have hc2 : (depStep g node t d).color = t.color := by simp [depStep, hcol]
      have hcy : (depStep g node t d).cycles = t.cycles := by simp [depStep, hcol]
      rw [hc2] at hpush hprog
      refine ⟨pushed ++ [(d, false)], extra, ?_, ?_, ?_, hne, ?_, ?_, ?_⟩
      · rw [hfold, hstk, hs]
        simp
      · rw [hfold, hclr, hc2]
      · rw [hfold, hcyc, hcy]
      · intro e he
        rcases List.mem_append.mp he with he | he
        · obtain ⟨h1, h2, h3⟩ := hpush e he
          exact ⟨h1, List.mem_cons_of_mem d h2, h3⟩
        · simp only [List.mem_singleton] at he
          exact he ▸ ⟨rfl, List.mem_cons_self _ _, hcol⟩
      · simp only [List.length_append, List.length_cons, List.length_nil]
        omega
      · intro x hx
        constructor
        · intro hw
          rcases List.mem_cons.mp hx with hx | hx
          · exact hx ▸ List.mem_append_right _ (List.mem_singleton_self _)
          · exact List.mem_append_left _ ((hprog x hx).1 hw)
        · intro hgr
          rcases List.mem_cons.mp hx with hx | hx
          · rw [hx] at hgr
            rw [hgr] at hcol
            cases hcol
          · rw [hfold]
            exact (hprog x hx).2 hgr
    | Color.black =>
      have hstep : depStep g node t d = t := by
        simp [depStep, hcol]
      rw [hstep] at hstk hclr hcyc hpush hprog
      refine ⟨pushed, extra, by rw [hfold, hstep, hstk], by rw [hfold, hstep, hclr],
        by rw [hfold, hstep, hcyc], hne, ?_, by simp only [List.length_cons]; omega, ?_⟩
      · intro e he
        obtain ⟨h1, h2, h3⟩ := hpush e he
        exact ⟨h1, List.mem_cons_of_mem d h2, h3⟩
      · intro x hx
        constructor
        · intro hw
          rcases List.mem_cons.mp hx with hx | hx
          · rw [hx] at hw
            rw [hw] at hcol
            cases hcol
          · exact (hprog x hx).1 hw
        · intro hgr
          rcases List.mem_cons.mp hx with hx | hx
          · rw [hx] at hgr
            rw [hgr] at hcol
            cases hcol
          · rw [hfold, hstep]
            exact (hprog x hx).2 hgr

theorem singleton_decomp {α : Type} (x e : α) (s1 s2 : List α)
    (h : [x] = s1 ++ e :: s2) : s1 = [] ∧ e = x ∧ s2 = [] := by
  cases s1 with
  | nil =>
    simp only [List.nil_append, List.cons.injEq] at h
    exact ⟨rfl, h.1.symm, h.2.symm⟩
  | cons a t =>
    simp only [List.cons_append, List.cons.injEq] at h
    have h2 := h.2
    have : s2.length + (t.length + 1) = 0 := by
      have := congrArg List.length h2
      simp at this
      omega
    omega

theorem update_white_mono (c : String → Color) (node : String) (cnew : Color)
    (hnw : cnew ≠ Color.white) (x : String)
    (h : Function.update c node cnew x = Color.white) : c x = Color.white := by
  by_cases hx : x = node
  · subst hx
    rw [Function.update_same] at h
    exact absurd h hnw
  · rwa [Function.update_noteq hx] at h

theorem dfsInv_no_gray_top (g : MigrationGraph) (s : DfsState) (bl : List String)
    (inv : DfsInv g s bl) (node : String) (rest : List (String × Bool))
    (hst : s.stack = (node, false) :: rest) : s.color node ≠ Color.gray := by
  intro hgr
  have := inv.dinv [] node rest (by simpa using hst) hgr
  simp at this

theorem dfsInv_pop_true (g : MigrationGraph) (s : DfsState) (bl : List String)
    (inv : DfsInv g s bl) (node : String) (rest : List (String × Bool))
    (hst : s.stack = (node, true) :: rest) :
    ∃ bl', bl ⊆ bl' ∧
      DfsInv g { s with stack := rest,
                        color := Function.update s.color node Color.black }
        bl' := by
  have hnode : node ∈ g.nodes :=
    inv.stackDom (node, true) (by rw [hst]; exact List.mem_cons_self _ _)
  have hdeps_nw : ∀ d ∈ g.forward node, s.color d ≠ Color.white := by
    intro d hd
    rcases inv.c0 [] node rest (by simpa using hst) d hd with h | h
    · exact h
    · simp at h
  have hdeps_bl : ∀ d ∈ g.forward node, s.cycles ≠ [] ∨ d ∈ bl := by
    intro d hd
    rcases inv.cstar [] node rest (by simpa using hst) d hd with h | h | h | h
    · exact Or.inl h
    · exact Or.inr h
    · simp at h
    · simp at h
  have hwhite_of : ∀ x, Function.update s.color node Color.black x = Color.white →
      s.color x = Color.white :=
    update_white_mono s.color node Color.black (by intro h; cases h)
  have colorDom' : ∀ x, x ∉ g.nodes →
      Function.update s.color node Color.black x = Color.white := by
    intro x hx
    have hxn : x ≠ node := fun h => hx (h ▸ hnode)
    rw [Function.update_noteq hxn]
    exact inv.colorDom x hx
  have stackDom' : ∀ e ∈ rest, e.1 ∈ g.nodes := fun e he =>
    inv.stackDom e (by rw [hst]; exact List.mem_cons_of_mem _ he)
  have c0' : ∀ s1 x s2, rest = s1 ++ (x, true) :: s2 → ∀ d ∈ g.forward x,
      Function.update s.color node Color.black d ≠ Color.white ∨ (d, false) ∈ s1 := by
    intro s1 x s2 hdec d hd
    rcases inv.c0 ((node, true) :: s1) x s2 (by rw [hst, hdec]; rfl) d hd with h | h
    · exact Or.inl (fun hw => h (hwhite_of d hw))
    · rcases List.mem_cons.mp h with h | h
      · simp at h
      · exact Or.inr h
  have dinv' : ∀ s1 x s2, rest = s1 ++ (x, false) :: s2 →
      Function.update s.color node Color.black x = Color.gray → (x, true) ∈ s1 := by
    intro s1 x s2 hdec hgr
    have hxn : x ≠ node := by
      intro h
      rw [h, Function.update_same] at hgr
      cases hgr
    rw [Function.update_noteq hxn] at hgr
    have hmem := inv.dinv ((node, true) :: s1) x s2 (by rw [hst, hdec]; rfl) hgr
    rcases List.mem_cons.mp hmem with h | h
    · exact absurd (congrArg Prod.fst h) hxn
    · exact h
  have binv' : ∀ x, Function.update s.color node Color.black x = Color.black →
      ∀ d ∈ g.forward x,
        Function.update s.color node Color.black d ≠ Color.white := by
    intro x hx d hd hw
    have hdw := hwhite_of d hw
    by_cases hxn : x = node
    · exact hdeps_nw d (hxn ▸ hd) hdw
    · rw [Function.update_noteq hxn] at hx
      exact inv.binv x hx d hd hdw
  have finv' : ∀ x, Function.update s.color node Color.black x = Color.gray →
      (x, true) ∈ rest := by
    intro x hx
    have hxn : x ≠ node := by
      intro h
      rw [h, Function.update_same] at hx
      cases hx
    rw [Function.update_noteq hxn] at hx
    have hmem := inv.finv x hx
    rw [hst] at hmem
    rcases List.mem_cons.mp hmem with h | h
    · exact absurd (congrArg Prod.fst h) hxn
    · exact h
  have tinv' : ∀ x, (x, true) ∈ rest →
      Function.update s.color node Color.black x ≠ Color.white := by
    intro x hx hw
    exact inv.tinv x (by rw [hst]; exact List.mem_cons_of_mem _ hx) (hwhite_of x hw)
  by_cases hbl : node ∈ bl
  · refine ⟨bl, fun x hx => hx, ?_, stackDom', ?_, ?_, inv.blNodup, ?_, c0', ?_,
      dinv', binv', finv', tinv', inv.cyNE⟩
    · exact colorDom'
    · intro x hx
      dsimp only at hx
      by_cases hxn : x = node
      · exact hxn ▸ hbl
      · rw [Function.update_noteq hxn] at hx
        exact inv.blackMem x hx
    · intro x hx hw
      dsimp only at hw
      exact inv.blNotWhite x hx (hwhite_of x hw)
    · exact inv.blW
    · intro s1 x s2 hdec d hd
      dsimp only at hdec
      rcases inv.cstar ((node, true) :: s1) x s2 (by rw [hst, hdec]; rfl) d hd
        with h | h | h | h
      · exact Or.inl h
      · exact Or.inr (Or.inl h)
      · rcases List.mem_cons.mp h with h | h
        · simp at h
        · exact Or.inr (Or.inr (Or.inl h))
      · rcases List.mem_cons.mp h with h | h
        · have hd2 : d = node := congrArg Prod.fst h
          exact Or.inr (Or.inl (hd2 ▸ hbl))
        · exact Or.inr (Or.inr (Or.inr h))
  · refine ⟨bl ++ [node], fun x hx => List.mem_append_left _ hx, ?_, stackDom',
      ?_, ?_, ?_, ?_, c0', ?_, dinv', binv', finv', tinv', inv.cyNE⟩
    · exact colorDom'
    · intro x hx
      dsimp only at hx
      by_cases hxn : x = node
      · exact hxn ▸ List.mem_append_right _ (List.mem_singleton_self _)
      · rw [Function.update_noteq hxn] at hx
        exact List.mem_append_left _ (inv.blackMem x hx)
    · intro x hx hw
      dsimp only at hw
      rcases List.mem_append.mp hx with hx | hx
      · exact inv.blNotWhite x hx (hwhite_of x hw)
      · simp only [List.mem_singleton] at hx
        rw [hx, Function.update_same] at hw
        cases hw
    · refine List.nodup_append.mpr ⟨inv.blNodup, List.nodup_singleton _, ?_⟩
      intro a ha hb
      simp only [List.mem_singleton] at hb
      exact hbl (hb ▸ ha)
    · intro i hi d hd
      by_cases hi2 : i < bl.length
      · rw [List.get_append i hi2] at hd
        rcases inv.blW i hi2 d hd with h | ⟨j, hji, hj, hget⟩
        · exact Or.inl h
        · refine Or.inr ⟨j, hji, by simp only [List.length_append]; omega, ?_⟩
          rw [List.get_append j hj]
          exact hget
      · have hieq : i = bl.length := by
          simp only [List.length_append, List.length_singleton] at hi
          omega
        have hgetn : (bl ++ [node]).get ⟨i, hi⟩ = node := by
          subst hieq
          simp
        rw [hgetn] at hd
        rcases hdeps_bl d hd with h | h
        · exact Or.inl h
        · obtain ⟨⟨j, hj⟩, hget⟩ := List.mem_iff_get.mp h
          refine Or.inr ⟨j, by omega, by simp only [List.length_append]; omega, ?_⟩
          rw [List.get_append j hj]
          exact hget
    · intro s1 x s2 hdec d hd
      dsimp only at hdec
      rcases inv.cstar ((node, true) :: s1) x s2 (by rw [hst, hdec]; rfl) d hd
        with h | h | h | h
      · exact Or.inl h
      · exact Or.inr (Or.inl (List.mem_append_left _ h))
      · rcases List.mem_cons.mp h with h | h
        · simp at h
        · exact Or.inr (Or.inr (Or.inl h))
      · rcases List.mem_cons.mp h with h | h
        · have hd2 : d = node := congrArg Prod.fst h
          exact Or.inr (Or.inl (hd2 ▸ List.mem_append_right _ (List.mem_singleton_self _)))
        · exact Or.inr (Or.inr (Or.inr h))

theorem push_decomp (pushed rest : List (String × Bool)) (node x : String)
    (b : Bool) (s1 s2 : List (String × Bool))
    (h : pushed ++ (node, true) :: rest = s1 ++ (x, b) :: s2) :
    ((x, b) ∈ pushed) ∨ (s1 = pushed ∧ x = node ∧ b = true ∧ s2 = rest) ∨
    (∃ r1, rest = r1 ++ (x, b) :: s2 ∧ s1 = pushed ++ (node, true) :: r1) := by
  rcases List.append_eq_append_iff.mp h with ⟨a2, ha1, ha2⟩ | ⟨c2, hc1, hc2⟩
  · cases a2 with
    | nil =>
      simp only [List.nil_append] at ha2
      injection ha2 with h1 h2
      exact Or.inr (Or.inl ⟨by rw [ha1]; simp, (congrArg Prod.fst h1).symm,
        (congrArg Prod.snd h1).symm, h2.symm⟩)
    | cons e a2' =>
      injection ha2 with h1 h2
      exact Or.inr (Or.inr ⟨a2', h2, by rw [ha1, ← h1]⟩)
  · cases c2 with
    | nil =>
      simp only [List.nil_append] at hc2
      injection hc2 with h1 h2
      exact Or.inr (Or.inl ⟨by simpa using hc1.symm, congrArg Prod.fst h1,
        congrArg Prod.snd h1, h2⟩)
    | cons e c2' =>
      injection hc2 with h1 h2
      refine Or.inl ?_
      rw [h1, hc1]
      exact List.mem_append_right _ (List.mem_cons_self _ _)

theorem dfsInv_expand (g : MigrationGraph) (hwf : WF g) (s : DfsState)
    (bl : List String) (node : String) (rest : List (String × Bool))
    (inv : DfsInv g s bl) (hst : s.stack = (node, false) :: rest)
    (hng : s.color node ≠ Color.gray) (t : DfsState)
    (ht : t = { s with stack := (node, true) :: rest,
                       color := Function.update s.color node Color.gray }) :
    ∃ pushed extra,
      (processDeps g node t).stack = pushed ++ (node, true) :: rest ∧
      (processDeps g node t).color = Function.update s.color node Color.gray ∧
      (processDeps g node t).cycles = s.cycles ++ extra ∧
      pushed.length ≤ (g.forward node).length ∧
      (∀ e ∈ pushed, e.2 = false) ∧
      (s.color node = Color.black → pushed = []) ∧
      DfsInv g (processDeps g node t) bl := by
  have htc : t.color = Function.update s.color node Color.gray := by rw [ht]
  have hts : t.stack = (node, true) :: rest := by rw [ht]
  have htcy : t.cycles = s.cycles := by rw [ht]
  have hnode : node ∈ g.nodes :=
    inv.stackDom (node, false) (by rw [hst]; exact List.mem_cons_self _ _)
  have hwhite_of : ∀ x, Function.update s.color node Color.gray x = Color.white →
      s.color x = Color.white :=
    update_white_mono s.color node Color.gray (by intro h; cases h)
  obtain ⟨pushed, extra, hstk, hclr, hcyc, hne, hpush, hlen, hprog⟩ :=
    depStep_fold g node (sortStrings (g.forward node)) t
  rw [← processDeps_eq g node t] at hstk hclr hcyc hprog
  rw [hts] at hstk
  rw [htc] at hclr
  rw [htcy] at hcyc
  rw [htc] at hpush
  simp only [htc] at hprog
  have hpushfalse : ∀ e ∈ pushed, e.2 = false := fun e he => (hpush e he).1
  have hpushwhite : ∀ e ∈ pushed,
      Function.update s.color node Color.gray e.1 = Color.white :=
    fun e he => (hpush e he).2.2
  have hpushfwd : ∀ e ∈ pushed, e.1 ∈ g.forward node := fun e he =>
    mem_sortStrings.mp (hpush e he).2.1
  have hcyNE : (processDeps g node t).cycles ≠ [] ↔ ¬(s.cycles = [] ∧ extra = []) := by
    rw [hcyc]
    constructor
    · intro h hc
      exact h (by rw [hc.1, hc.2]; rfl)
    · intro h hc
      rw [List.append_eq_nil] at hc
      exact h hc
  refine ⟨pushed, extra, hstk, hclr, hcyc,
    le_trans hlen (le_of_eq (perm_sortStrings _).length_eq), hpushfalse, ?_, ?_⟩
  · intro hb
    rw [List.eq_nil_iff_forall_not_mem]
    intro e he
    have hw := hwhite_of e.1 (hpushwhite e he)
    exact inv.binv node hb e.1 (hpushfwd e he) hw
  refine ⟨?_, ?_, ?_, ?_, inv.blNodup, ?_, ?_, ?_, ?_, ?_, ?_, ?_, ?_⟩
  · -- colorDom
    intro x hx
    rw [hclr]
    have hxn : x ≠ node := fun h => hx (h ▸ hnode)
    rw [Function.update_noteq hxn]
    exact inv.colorDom x hx
  · -- stackDom
    intro e he
    rw [hstk] at he
    rcases List.mem_append.mp he with he | he
    · exact hwf.fwdTgt node e.1 (hpushfwd e he)
    · rcases List.mem_cons.mp he with he | he
      · rw [he]
        exact hnode
      · exact inv.stackDom e (by rw [hst]; exact List.mem_cons_of_mem _ he)
  · -- blackMem
    intro x hx
    rw [hclr] at hx
    have hxn : x ≠ node := by
      intro h
      rw [h, Function.update_same] at hx
      cases hx
    rw [Function.update_noteq hxn] at hx
    exact inv.blackMem x hx
  · -- blNotWhite
    intro x hx hw
    rw [hclr] at hw
    exact inv.blNotWhite x hx (hwhite_of x hw)
  · -- blW
    intro i hi d hd
    rcases inv.blW i hi d hd with h | h
    · refine Or.inl ?_
      rw [hcyc]
      intro heq
      rw [List.append_eq_nil] at heq
      exact h heq.1
    · exact Or.inr h
  · -- c0
    intro s1 x s2 hdec d hd
    rw [hstk] at hdec
    rcases push_decomp pushed rest node x true s1 s2 hdec with h | ⟨h1, h2, _, _⟩ | ⟨r1, hr, hs1⟩
    · have := hpushfalse _ h
      simp at this
    · rw [h2] at hd
      by_cases hw : Function.update s.color node Color.gray d = Color.white
      · refine Or.inr ?_
        rw [h1]
        exact ((hprog d (mem_sortStrings.mpr hd)).1 hw)
      · refine Or.inl ?_
        rw [hclr]
        exact hw
    · rcases inv.c0 ((node, false) :: r1) x s2 (by rw [hst, hr]; rfl) d hd with h | h
      · refine Or.inl ?_
        rw [hclr]
        intro hw
        exact h (hwhite_of d hw)
      · rcases List.mem_cons.mp h with h | h
        · have hd2 : d = node := congrArg Prod.fst h
          refine Or.inl ?_
          rw [hclr, hd2, Function.update_same]
          intro hc
          cases hc
        · refine Or.inr ?_
          rw [hs1]
          exact List.mem_append_right _ (List.mem_cons_of_mem _ h)
  · -- cstar
    intro s1 x s2 hdec d hd
    rw [hstk] at hdec
    rcases push_decomp pushed rest node x true s1 s2 hdec with h | ⟨h1, h2, _, _⟩ | ⟨r1, hr, hs1⟩
    · have := hpushfalse _ h
      simp at this
    · rw [h2] at hd
      have hdL : d ∈ sortStrings (g.forward node) := mem_sortStrings.mpr hd
      match hcol : Function.update s.color node Color.gray d with
      | Color.white =>
        refine Or.inr (Or.inr (Or.inl ?_))
        rw [h1]
        exact (hprog d hdL).1 hcol
      | Color.gray =>
        exact Or.inl ((hprog d hdL).2 hcol)
      | Color.black =>
        have hdn : d ≠ node := by
          intro h
          rw [h, Function.update_same] at hcol
          cases hcol
        rw [Function.update_noteq hdn] at hcol
        exact Or.inr (Or.inl (inv.blackMem d hcol))
    · rcases inv.cstar ((node, false) :: r1) x s2 (by rw [hst, hr]; rfl) d hd
        with h | h | h | h
      · refine Or.inl ?_
        rw [hcyc]
        intro heq
        rw [List.append_eq_nil] at heq
        exact h heq.1
      · exact Or.inr (Or.inl h)
      · rcases List.mem_cons.mp h with h | h
        · have hd2 : d = node := congrArg Prod.fst h
          refine Or.inr (Or.inr (Or.inr ?_))
          rw [hs1, hd2]
          exact List.mem_append_right _ (List.mem_cons_self _ _)
        · refine Or.inr (Or.inr (Or.inl ?_))
          rw [hs1]
          exact List.mem_append_right _ (List.mem_cons_of_mem _ h)
      · rcases List.mem_cons.mp h with h | h
        · have := congrArg Prod.snd h
          simp at this
        · refine Or.inr (Or.inr (Or.inr ?_))
          rw [hs1]
          exact List.mem_append_right _ (List.mem_cons_of_mem _ h)
  · -- dinv
    intro s1 x s2 hdec hgr
    rw [hstk] at hdec
    rw [hclr] at hgr
    rcases push_decomp pushed rest node x false s1 s2 hdec with h | ⟨_, _, hb, _⟩ | ⟨r1, hr, hs1⟩
    · have hw := hpushwhite _ h
      rw [hgr] at hw
      cases hw
    · cases hb
    · by_cases hxn : x = node
      · rw [hs1, hxn]
        exact List.mem_append_right _ (List.mem_cons_self _ _)
      · rw [Function.update_noteq hxn] at hgr
        have hmem := inv.dinv ((node, false) :: r1) x s2 (by rw [hst, hr]; rfl) hgr
        rcases List.mem_cons.mp hmem with h | h
        · have := congrArg Prod.snd h
          simp at this
        · rw [hs1]
          exact List.mem_append_right _ (List.mem_cons_of_mem _ h)
  · -- binv
    intro x hx d hd hw
    rw [hclr] at hx hw
    have hxn : x ≠ node := by
      intro h
      rw [h, Function.update_same] at hx
      cases hx
    rw [Function.update_noteq hxn] at hx
    exact inv.binv x hx d hd (hwhite_of d hw)
  · -- finv
    intro x hx
    rw [hclr] at hx
    rw [hstk]
    by_cases hxn : x = node
    · rw [hxn]
      exact List.mem_append_right _ (List.mem_cons_self _ _)
    · rw [Function.update_noteq hxn] at hx
      have hmem := inv.finv x hx
      rw [hst] at hmem
      rcases List.mem_cons.mp hmem with h | h
      · have := congrArg Prod.snd h
        simp at this
      · exact List.mem_append_right _ (List.mem_cons_of_mem _ h)
  · -- tinv
    intro x hx hw
    rw [hstk] at hx
    rw [hclr] at hw
    rcases List.mem_append.mp hx with hx | hx
    · have := hpushfalse _ hx
      simp at this
    · rcases List.mem_cons.mp hx with hx | hx
      · have hxn : x = node := congrArg Prod.fst hx
        rw [hxn, Function.update_same] at hw
        cases hw
      · exact inv.tinv x (by rw [hst]; exact List.mem_cons_of_mem _ hx)
          (hwhite_of x hw)
  · -- cyNE
    intro c hc
    rw [hcyc] at hc
    rcases List.mem_append.mp hc with hc | hc
    · exact inv.cyNE c hc
    · exact hne c hc

theorem filter_white_congr (l : List String) (c : String → Color) (node : String)
    (cnew : Color) (h1 : c node ≠ Color.white) (h2 : cnew ≠ Color.white) :
    l.filter (fun x => Function.update c node cnew x = Color.white) =
      l.filter (fun x => c x = Color.white) := by
  apply List.filter_congr
  intro x _
  by_cases hx : x = node
  · subst hx
    rw [Function.update_same]
    simp [h1, h2]
  · rw [Function.update_noteq hx]

theorem sum_filter_update (c : String → Color) (node : String)
    (hw : c node = Color.white) (cnew : Color) (hcnew : cnew ≠ Color.white)
    (f : String → Nat) :
    ∀ (l : List String), l.Nodup → node ∈ l →
    ((l.filter (fun x => Function.update c node cnew x = Color.white)).map f).sum
      + f node =
    ((l.filter (fun x => c x = Color.white)).map f).sum := by
  intro l
  induction l with
  | nil =>
    intro _ hmem
    simp at hmem
  | cons y t ih =>
    intro hnd hmem
    obtain ⟨hyt, hndt⟩ := List.nodup_cons.mp hnd
    by_cases hy : y = node
    · have hnt : node ∉ t := by
        rw [← hy]
        exact hyt
      have htcong : t.filter (fun x => Function.update c node cnew x = Color.white)
          = t.filter (fun x => c x = Color.white) := by
        apply List.filter_congr
        intro x hx
        have hxn : x ≠ node := fun h => hnt (h ▸ hx)
        rw [Function.update_noteq hxn]
      rw [List.filter_cons, List.filter_cons, htcong]
      rw [if_neg (by rw [hy, Function.update_same]; simp [hcnew])]
      rw [if_pos (by rw [hy, hw]; simp)]
      simp only [List.map_cons, List.sum_cons]
      rw [hy]
      omega
    · have hmem2 : node ∈ t := by
        rcases List.mem_cons.mp hmem with h | h
        · exact absurd h.symm hy
        · exact h
      rw [List.filter_cons, List.filter_cons]
      have hupd : Function.update c node cnew y = c y := Function.update_noteq hy _ _
      rw [hupd]
      by_cases hcy : c y = Color.white
      · rw [if_pos (by simp [hcy]), if_pos (by simp [hcy])]
        simp only [List.map_cons, List.sum_cons]
        have := ih hndt hmem2
        omega
      · rw [if_neg (by simp [hcy]), if_neg (by simp [hcy])]
        exact ih hndt hmem2

theorem sum_map_affine (f : String → Nat) : ∀ (l : List String),
    (l.map (fun x => 2 * f x + 3)).sum = 2 * (l.map f).sum + 3 * l.length := by
  intro l
  induction l with
  | nil => simp
  | cons y t ih =>
    simp only [List.map_cons, List.sum_cons, List.length_cons, ih]
    ring

theorem whiteSum_le_total (g : MigrationGraph) (c : String → Color) :
    ((g.nodes.filter (fun x => c x = Color.white)).map
      (fun x => 2 * (g.forward x).length + 3)).sum ≤
      2 * g.edgeSum + 3 * g.nodes.length := by
  calc ((g.nodes.filter (fun x => c x = Color.white)).map
      (fun x => 2 * (g.forward x).length + 3)).sum
      ≤ (g.nodes.map (fun x => 2 * (g.forward x).length + 3)).sum :=
        List.Sublist.sum_le_sum
          (List.Sublist.map (fun x => 2 * (g.forward x).length + 3)
            (List.filter_sublist g.nodes))
          (fun a _ => Nat.zero_le a)
    _ = 2 * (g.nodes.map (fun x => (g.forward x).length)).sum
        + 3 * g.nodes.length := sum_map_affine _ _
    _ = 2 * g.edgeSum + 3 * g.nodes.length := rfl

theorem dfsInner_spec (g : MigrationGraph) (hwf : WF g) :
    ∀ (fuel : Nat) (s : DfsState) (bl : List String), DfsInv g s bl →
      dfsPhi g s < fuel →
      ∃ bl', bl ⊆ bl' ∧ DfsInv g (dfsInner g fuel s) bl' ∧
        (dfsInner g fuel s).stack = [] ∧
        (∀ x, s.color x ≠ Color.white → (dfsInner g fuel s).color x ≠ Color.white) ∧
        (∀ e ∈ s.stack, (dfsInner g fuel s).color e.1 ≠ Color.white) := by
  intro fuel
  induction fuel with
  | zero =>
    intro s bl _ hphi
    exact absurd hphi (Nat.not_lt_zero _)
  | succ f ih =>
    intro s bl inv hphi
    match hstk : s.stack with
    | [] =>
      have hdfs : dfsInner g (f + 1) s = s := by
        simp only [dfsInner, hstk]
      rw [hdfs]
      exact ⟨bl, fun x hx => hx, inv, hstk, fun x hx => hx,
        by intro e he; simp at he⟩
    | (node, processed) :: rest =>
      have hnodemem : node ∈ g.nodes := inv.stackDom (node, processed)
        (by rw [hstk]; exact List.mem_cons_self _ _)
      cases processed with
      | true =>
        have hnw : s.color node ≠ Color.white :=
          inv.tinv node (by rw [hstk]; exact List.mem_cons_self _ _)
        obtain ⟨bl1, hsub1, inv1⟩ := dfsInv_pop_true g s bl inv node rest hstk
        have hwS := filter_white_congr g.nodes s.color node Color.black hnw
          (by intro h; cases h)
        have hphi1 : dfsPhi g { s with stack := rest, color := Function.update s.color node Color.black } + 1 = dfsPhi g s := by
          simp only [dfsPhi, hstk, List.countP_cons]
          dsimp only
          rw [hwS]
          simp
          omega
        obtain ⟨bl', hsub', inv', hstk', hmono', hmem'⟩ :=
          ih { s with stack := rest, color := Function.update s.color node Color.black }
            bl1 inv1 (by omega)
        have hdfs : dfsInner g (f + 1) s = dfsInner g f { s with stack := rest, color := Function.update s.color node Color.black } := by
          simp only [dfsInner, hstk, if_true]
        refine ⟨bl', fun x hx => hsub' (hsub1 hx), ?_, ?_, ?_, ?_⟩
        · rw [hdfs]
          exact inv'
        · rw [hdfs]
          exact hstk'
        · intro x hx
          rw [hdfs]
          apply hmono'
          dsimp only
          intro hw
          exact hx (update_white_mono s.color node Color.black
            (by intro h; cases h) x hw)
        · intro e he
          rw [hdfs]
          rcases List.mem_cons.mp he with he | he
          · rw [he]
            apply hmono'
            dsimp only
            rw [Function.update_same]
            intro h
            cases h
          · exact hmem' e he
      | false =>
        have hng : s.color node ≠ Color.gray :=
          dfsInv_no_gray_top g s bl inv node rest hstk
        obtain ⟨pushed, extra, hstk2, hclr2, hcyc2, hlen2, hpf, hblack2, inv2⟩ :=
          dfsInv_expand g hwf s bl node rest inv hstk hng _ rfl
        have hpl : pushed.countP (fun e => !e.2) = pushed.length :=
          List.countP_eq_length.mpr (fun e he => by rw [hpf e he]; rfl)
        have hpt : pushed.countP (fun e => e.2) = 0 :=
          List.countP_eq_zero.mpr (fun e he => by rw [hpf e he]; simp)
        have hcf1 : ((node, true) :: rest).countP (fun e => !e.2) =
            rest.countP (fun e => !e.2) := by rw [List.countP_cons]; simp
        have hct1 : ((node, true) :: rest).countP (fun e => e.2) =
            rest.countP (fun e => e.2) + 1 := by rw [List.countP_cons]; simp
        have hcf0 : ((node, false) :: rest).countP (fun e => !e.2) =
            rest.countP (fun e => !e.2) + 1 := by rw [List.countP_cons]; simp
        have hct0 : ((node, false) :: rest).countP (fun e => e.2) =
            rest.countP (fun e => e.2) := by rw [List.countP_cons]; simp
        have hphi2 : dfsPhi g (processDeps g node { s with stack := (node, true) :: rest, color := Function.update s.color node Color.gray }) + 1 ≤ dfsPhi g s := by
          cases hcol : s.color node with
          | gray => exact absurd hcol hng
          | white =>
            have hsum2 : ((g.nodes.filter
                (fun x => Function.update s.color node Color.gray x = Color.white)).map
                  (fun x => 2 * (g.forward x).length + 3)).sum
                + (2 * (g.forward node).length + 3) =
                ((g.nodes.filter (fun x => s.color x = Color.white)).map
                  (fun x => 2 * (g.forward x).length + 3)).sum :=
              sum_filter_update s.color node hcol Color.gray (by intro h; cases h)
                (fun x => 2 * (g.forward x).length + 3) g.nodes
                hwf.nodesNodup hnodemem
            simp only [dfsPhi, hstk, hstk2, hclr2, List.countP_append, hpl, hpt,
              hcf1, hct1, hcf0, hct0]
            omega
          | black =>
            have hpe : pushed = [] := hblack2 hcol
            have hnw2 : s.color node ≠ Color.white := by
              rw [hcol]
              intro h
              cases h
            have hwS2 := filter_white_congr g.nodes s.color node Color.gray hnw2
              (by intro h; cases h)
            simp only [dfsPhi, hstk, hstk2, hclr2, hpe, List.countP_append,
              List.countP_nil, List.nil_append, hwS2, hcf1, hct1, hcf0, hct0]
            omega
        obtain ⟨bl', hsub', inv', hstk', hmono', hmem'⟩ :=
          ih (processDeps g node { s with stack := (node, true) :: rest, color := Function.update s.color node Color.gray })
            bl inv2 (by omega)
        have hdfs : dfsInner g (f + 1) s = dfsInner g f (processDeps g node { s with stack := (node, true) :: rest, color := Function.update s.color node Color.gray }) := by
          simp only [dfsInner, hstk]
          rw [if_neg Bool.false_ne_true, if_neg hng]
        refine ⟨bl', hsub', ?_, ?_, ?_, ?_⟩
        · rw [hdfs]
          exact inv'
        · rw [hdfs]
          exact hstk'
        · intro x hx
          rw [hdfs]
          apply hmono'
          rw [hclr2]
          intro hw
          exact hx (update_white_mono s.color node Color.gray
            (by intro h; cases h) x hw)
        · intro e he
          rw [hdfs]
          rcases List.mem_cons.mp he with he | he
          · rw [he]
            apply hmono'
            rw [hclr2]
            dsimp only
            rw [Function.update_same]
            intro h
            cases h
          · apply hmem'
            rw [hstk2]
            exact List.mem_append_right _ (List.mem_cons_of_mem _ he)

theorem dfsOuter_spec (g : MigrationGraph) (hwf : WF g) (fuel : Nat)
    (hfuel : 2 * g.edgeSum + 3 * g.nodes.length + 2 < fuel) :
    ∀ (starts : List String) (s : DfsState) (bl : List String),
      (∀ x ∈ starts, x ∈ g.nodes) → DfsInv g s bl → s.stack = [] →
      ∃ bl', bl ⊆ bl' ∧
        DfsInv g (starts.foldl (dfsOuterStep g fuel) s) bl' ∧
        (starts.foldl (dfsOuterStep g fuel) s).stack = [] ∧
        (∀ x, s.color x ≠ Color.white →
          (starts.foldl (dfsOuterStep g fuel) s).color x ≠ Color.white) ∧
        (∀ x ∈ starts,
          (starts.foldl (dfsOuterStep g fuel) s).color x ≠ Color.white) := by
  intro starts
  induction starts with
  | nil =>
    intro s bl _ inv hstk
    exact ⟨bl, fun x hx => hx, inv, hstk, fun x hx => hx,
      by intro x hx; simp at hx⟩
  | cons st starts ih =>
    intro s bl hsub inv hstk
    have hstm : st ∈ g.nodes := hsub st (List.mem_cons_self _ _)
    have hfold : (st :: starts).foldl (dfsOuterStep g fuel) s =
        starts.foldl (dfsOuterStep g fuel) (dfsOuterStep g fuel s st) := rfl
    have hnograyall : ∀ x, s.color x ≠ Color.gray := by
      intro x hgr
      have hmem := inv.finv x hgr
      rw [hstk] at hmem
      simp at hmem
    by_cases hw : s.color st = Color.white
    · have hstep : dfsOuterStep g fuel s st =
          dfsInner g fuel { s with stack := [(st, false)] } := by
        simp [dfsOuterStep, hw]
      have inv1 : DfsInv g { s with stack := [(st, false)] } bl := by
        refine ⟨inv.colorDom, ?_, inv.blackMem, inv.blNotWhite, inv.blNodup,
          inv.blW, ?_, ?_, ?_, inv.binv, ?_, ?_, inv.cyNE⟩
        · intro e he
          dsimp only at he
          simp only [List.mem_singleton] at he
          rw [he]
          exact hstm
        · intro s1 x s2 hdec d hd
          dsimp only at hdec
          obtain ⟨_, h2, _⟩ := singleton_decomp _ _ _ _ hdec
          have := congrArg Prod.snd h2
          simp at this
        · intro s1 x s2 hdec d hd
          dsimp only at hdec
          obtain ⟨_, h2, _⟩ := singleton_decomp _ _ _ _ hdec
          have := congrArg Prod.snd h2
          simp at this
        · intro s1 x s2 hdec hgr
          exact absurd hgr (hnograyall x)
        · intro x hgr
          exact absurd hgr (hnograyall x)
        · intro x hx
          dsimp only at hx
          simp only [List.mem_singleton] at hx
          have := congrArg Prod.snd hx
          simp at this
      have hphi1 : dfsPhi g { s with stack := [(st, false)] } < fuel := by
        have hws := whiteSum_le_total g s.color
        have heq : dfsPhi g { s with stack := [(st, false)] } =
            ((g.nodes.filter (fun x => s.color x = Color.white)).map
              (fun x => 2 * (g.forward x).length + 3)).sum + 2 := by
          simp only [dfsPhi]
          dsimp only
          rw [List.countP_cons, List.countP_cons, List.countP_nil]
          simp
        omega
      obtain ⟨bl1, hsub1, inv2, hstk2, hmono2, hmem2⟩ :=
        dfsInner_spec g hwf fuel { s with stack := [(st, false)] } bl inv1 hphi1
      obtain ⟨bl', hsub', inv', hstk', hmono', hall'⟩ :=
        ih (dfsInner g fuel { s with stack := [(st, false)] }) bl1
          (fun x hx => hsub x (List.mem_cons_of_mem _ hx)) inv2 hstk2
      refine ⟨bl', fun x hx => hsub' (hsub1 hx), ?_, ?_, ?_, ?_⟩
      · rw [hfold, hstep]
        exact inv'
      · rw [hfold, hstep]
        exact hstk'
      · intro x hx
        rw [hfold, hstep]
        exact hmono' x (hmono2 x hx)
      · intro x hx
        rw [hfold, hstep]
        rcases List.mem_cons.mp hx with hx | hx
        · rw [hx]
          exact hmono' st (hmem2 (st, false) (List.mem_singleton_self _))
        · exact hall' x hx
    · have hstep : dfsOuterStep g fuel s st = s := by
        simp [dfsOuterStep, hw]
      obtain ⟨bl', hsub', inv', hstk', hmono', hall'⟩ :=
        ih s bl (fun x hx => hsub x (List.mem_cons_of_mem _ hx)) inv hstk
      refine ⟨bl', hsub', ?_, ?_, ?_, ?_⟩
      · rw [hfold, hstep]
        exact inv'
      · rw [hfold, hstep]
        exact hstk'
      · intro x hx
        rw [hfold, hstep]
        exact hmono' x hx
      · intro x hx
        rw [hfold, hstep]
        rcases List.mem_cons.mp hx with hx | hx
        · rw [hx]
          exact hmono' st hw
        · exact hall' x hx

theorem detect_cycles_complete (g : MigrationGraph) (hwf : WF g)
    (hcyc : HasCycle g) :
    g.detect_cycles ≠ [] ∧ ∀ c ∈ g.detect_cycles, c ≠ [] := by
  have hnilstack : ∀ (s1 s2 : List (String × Bool)) (e : String × Bool),
      ([] : List (String × Bool)) = s1 ++ e :: s2 → False := by
    intro s1 s2 e h
    have hlen := congrArg List.length h
    simp only [List.length_nil, List.length_append, List.length_cons] at hlen
    omega
  have inv0 : DfsInv g { color := fun _ => Color.white, parent := fun _ => none, stack := [], cycles := [] } ([] : List String) := by
    refine ⟨fun x _ => rfl, ?_, ?_, ?_, List.nodup_nil, ?_, ?_, ?_, ?_, ?_, ?_, ?_, ?_⟩
    · intro e he
      simp at he
    · intro x hx
      exact Color.noConfusion hx
    · intro x hx
      simp at hx
    · intro i hi
      simp at hi
    · intro s1 x s2 hdec
      exact absurd (hnilstack s1 s2 _ hdec) (fun h => h)
    · intro s1 x s2 hdec
      exact absurd (hnilstack s1 s2 _ hdec) (fun h => h)
    · intro s1 x s2 hdec
      exact absurd (hnilstack s1 s2 _ hdec) (fun h => h)
    · intro x hx
      exact Color.noConfusion hx
    · intro x hx
      exact Color.noConfusion hx
    · intro x hx
      simp at hx
    · intro c hc
      simp at hc
  have hfuel : 2 * g.edgeSum + 3 * g.nodes.length + 2 <
      3 * g.nodes.length + 2 * g.edgeSum + 3 := by omega
  obtain ⟨bl, _, invF, hstkF, _, hallF⟩ :=
    dfsOuter_spec g hwf (3 * g.nodes.length + 2 * g.edgeSum + 3) hfuel
      (sortStrings g.nodes)
      { color := fun _ => Color.white, parent := fun _ => none, stack := [], cycles := [] }
      [] (fun x hx => mem_sortStrings.mp hx) inv0 rfl
  constructor
  · intro hnil
    rw [detect_cycles_eq] at hnil
    have hblack : ∀ x ∈ g.nodes,
        ((sortStrings g.nodes).foldl
          (dfsOuterStep g (3 * g.nodes.length + 2 * g.edgeSum + 3))
          { color := fun _ => Color.white, parent := fun _ => none, stack := [], cycles := [] }).color x = Color.black := by
      intro x hx
      have hnw := hallF x (mem_sortStrings.mpr hx)
      have hng : ((sortStrings g.nodes).foldl
          (dfsOuterStep g (3 * g.nodes.length + 2 * g.edgeSum + 3))
          { color := fun _ => Color.white, parent := fun _ => none, stack := [], cycles := [] }).color x ≠ Color.gray := by
        intro hgr
        have hmem := invF.finv x hgr
        rw [hstkF] at hmem
        simp at hmem
      cases hc : ((sortStrings g.nodes).foldl
          (dfsOuterStep g (3 * g.nodes.length + 2 * g.edgeSum + 3))
          { color := fun _ => Color.white, parent := fun _ => none, stack := [], cycles := [] }).color x with
      | white => exact absurd hc hnw
      | gray => exact absurd hc hng
      | black => rfl
    have hmem_bl : ∀ x ∈ g.nodes, x ∈ bl := fun x hx =>
      invF.blackMem x (hblack x hx)
    have hrank : ∀ (i : Nat) (hi : i < bl.length),
        ∀ d ∈ g.forward (bl.get ⟨i, hi⟩),
        ∃ j, j < i ∧ ∃ hj : j < bl.length, bl.get ⟨j, hj⟩ = d := by
      intro i hi d hd
      rcases invF.blW i hi d hd with h | h
      · exact absurd hnil h
      · exact h
    obtain ⟨a, p, hp, hchain, hlast⟩ := hcyc
    exact ranked_no_cycle g bl invF.blNodup hrank a p hchain hlast
      (hmem_bl a (chain_mem_nodes g hwf p a hchain a (mem_of_getLast_some p a hlast)))
  · intro c hc
    rw [detect_cycles_eq] at hc
    exact invF.cyNE c hc

/-- C4: for every well-formed graph containing at least one cycle,
`topological_sort` fails with the distinguishable cycle `ValueError`
(raised exactly when fewer nodes are emitted than exist in the graph), and
`detect_cycles` returns at least one path, every returned path being
non-empty. -/
theorem C4_cycle_error_and_detection (g : MigrationGraph) (hwf : WF g)
    (hcyc : HasCycle g) :
    g.topological_sort = Except.error
      "Migration graph contains cycles – topological sort is impossible." ∧
    g.detect_cycles ≠ [] ∧ ∀ c ∈ g.detect_cycles, c ≠ [] :=
  ⟨topo_error_of_cycle g hwf hcyc, detect_cycles_complete g hwf hcyc⟩

theorem C4_cycle_error_and_detection_witness :
    gC4.topological_sort = Except.error
      "Migration graph contains cycles – topological sort is impossible." ∧
    gC4.detect_cycles ≠ [] ∧ ∀ c ∈ gC4.detect_cycles, c ≠ [] :=
  C4_cycle_error_and_detection gC4 (wf_buildGraph _)
    ⟨"a", ["b", "a"], by decide,
      List.Chain.cons (by decide) (List.Chain.cons (by decide) List.Chain.nil),
      by decide⟩
